import Mathlib

/-!
# Verification of timbarker/web-crawler

A shallow embedding of `crawler.go` and `page.go`.

* The `net/url`, `net/http` and `golang.org/x/net/html` packages are not part
  of the repository.  What the crawler uses of them is taken as a parameter:
  `URLLib` for `net/url` and `strings.TrimSpace`, a function `get` for
  `http.Get`, and the result of `html.Parse` is carried by the response.
* The sequential functions (`visitPage`, `processHTMLContent`,
  `visitHTMLNode`, `extractLinksFromNode`, `getAttributeValueAsURL`) are
  embedded as pure functions.
* The goroutines of `Crawl` (`visitPages`, `processPages`, one `visitPage`
  per accepted URL, and the anonymous waiter) are embedded as an interleaving
  transition system `step` over `State`; the channels are unbuffered, so a
  send and its receive are one rendezvous step.  Every step holds at most one
  operation on shared state (a channel operation, `Add`, `Done`, the return
  of `Wait`, the closes); what a goroutine computes locally in between is
  part of the step.  A send on a closed channel and a `Done` at counter zero
  set `panicked`.
* The site is a function `get` from the string of a url to the result of
  `http.Get`, and the consumer of `results` takes every Page offered.
-/

namespace WebCrawler

/-! ## External collaborators -/

/-- The operations of `net/url` (and `strings.TrimSpace`) used by the crawler,
over an arbitrary representation `U` of `*url.URL`. -/
structure URLLib (U : Type) where
  /-- `base.ResolveReference(ref)` -/
  resolve : U → U → U
  /-- `u.Hostname()` -/
  hostname : U → String
  /-- `u.String()` -/
  str : U → String
  /-- `url.Parse(raw)`; `none` when it returns an error -/
  parse : String → Option U
  /-- `strings.TrimSpace(s)` -/
  trimSpace : String → String

/-- `html.NodeType` -/
inductive NodeType
  | ErrorNode | TextNode | DocumentNode | ElementNode | CommentNode | DoctypeNode | RawNode
  deriving DecidableEq, Repr

/-- `html.Attribute` -/
structure Attribute where
  Namespace : String
  Key : String
  Val : String
  deriving DecidableEq, Repr

/-- `html.Node`: the `FirstChild`/`NextSibling` chain is the list `children`. -/
inductive Node where
  | mk (type : NodeType) (data : String) (attr : List Attribute) (children : List Node)

namespace Node

/-- `node.Type` -/
def type : Node → NodeType
  | .mk t _ _ _ => t

/-- `node.Data` -/
def data : Node → String
  | .mk _ d _ _ => d

/-- `node.Attr` -/
def attr : Node → List Attribute
  | .mk _ _ a _ => a

/-- The children, from `FirstChild` along `NextSibling`. -/
def children : Node → List Node
  | .mk _ _ _ c => c

end Node

/-- What `visitPage` reads of an `*http.Response`: `StatusCode`, `Status`,
`Header.Get("Content-Type")`, and the result of `html.Parse(resp.Body)`. -/
structure Response where
  statusCode : Int
  status : String
  contentType : String
  body : Except String Node

/-- `http.StatusOK` -/
def StatusOK : Int := 200

/-! ## page.go -/

/-- `Page` of page.go. -/
structure Page (U : Type) where
  location : U
  links : List U
  err : Option String

/-! ## crawler.go: the page fetcher -/

/-- `isHTMLContent`: `strings.Contains(contentType, "text/html")`. -/
def isHTMLContent (resp : Response) : Bool :=
  decide ("text/html".toList <:+: resp.contentType.toList)

/-- `getAttributeValueAsURL`, as the loop over `aTag.Attr`. -/
def getAttributeValueAsURLLoop {U : Type} (lib : URLLib U) :
    List Attribute → String → Option U
  | [], _ => none
  | urlAttribute :: rest, attributeKey =>
    if urlAttribute.Key ≠ attributeKey then
      getAttributeValueAsURLLoop lib rest attributeKey
    else
      let rawURL := lib.trimSpace urlAttribute.Val
      if rawURL = "" then none
      else
        match lib.parse rawURL with
        | none => none
        | some url => some url

/-- `getAttributeValueAsURL(aTag, attributeKey)`; `none` is the nil result. -/
def getAttributeValueAsURL {U : Type} (lib : URLLib U) (aTag : Node)
    (attributeKey : String) : Option U :=
  getAttributeValueAsURLLoop lib aTag.attr attributeKey

/-- `(page *Page) extractLinksFromNode(node)`; the mutation of `page.links` is
the returned page. -/
def extractLinksFromNode {U : Type} (lib : URLLib U) (page : Page U) (node : Node) :
    Page U :=
  if node.data = "a" then
    match getAttributeValueAsURL lib node "href" with
    | some href => { page with links := page.links ++ [href] }
    | none => page
  else page

mutual
/-- `visitHTMLNode(node, processHTMLElement)`; the callback acts on a state
`σ` that is threaded through the traversal. -/
def visitHTMLNode {σ : Type} (processHTMLElement : Node → σ → σ) : Node → σ → σ
  | .mk ty d attrs cs, s =>
    let s1 := if ty = NodeType.ElementNode then processHTMLElement (.mk ty d attrs cs) s else s
    visitHTMLChildren processHTMLElement cs s1
/-- The `for childNode := node.FirstChild; ...` loop of `visitHTMLNode`. -/
def visitHTMLChildren {σ : Type} (processHTMLElement : Node → σ → σ) : List Node → σ → σ
  | [], s => s
  | childNode :: rest, s =>
    visitHTMLChildren processHTMLElement rest (visitHTMLNode processHTMLElement childNode s)
end

/-- `processHTMLContent(url, content)`, given the result of
`html.Parse(content)`. -/
def processHTMLContent {U : Type} (lib : URLLib U) (url : U) (parsed : Except String Node) :
    Page U :=
  let page : Page U := { location := url, links := [], err := none }
  match parsed with
  | .error err => { page with err := some err }
  | .ok doc => visitHTMLNode (fun node page => extractLinksFromNode lib page node) doc page

/-- The text of `fmt.Errorf("non-successful response from '%v', status: '%s'", url, resp.Status)`. -/
def statusError {U : Type} (lib : URLLib U) (url : U) (status : String) : String :=
  "non-successful response from \x27" ++ lib.str url ++ "\x27, status: \x27" ++ status ++ "\x27"

/-- `visitPage(url)`: the value it sends on `pagesCrawled` (`none` is nil).
`get s` is `http.Get(s)`, `.error` being a transport failure. -/
def visitPage {U : Type} (lib : URLLib U) (get : String → Except String Response) (url : U) :
    Option (Page U) :=
  match get (lib.str url) with
  | .error err => some { location := url, links := [], err := some err }
  | .ok resp =>
    if resp.statusCode ≠ StatusOK then
      some { location := url, links := [], err := some (statusError lib url resp.status) }
    else if !isHTMLContent resp then
      none
    else
      some (processHTMLContent lib url resp.body)

/-! ## crawler.go: the frontier dispatcher -/

/-- What the body of the `visitPages` loop does with one received url. -/
inductive Decision (U : Type) where
  /-- `crawler.complete.Done()` and `continue` -/
  | done
  /-- `go crawler.visitPage(url)` -/
  | visit (url : U)

/-- The body of the `for url := range crawler.urlsToVisit` loop of
`visitPages`; `visitedUrls` holds the keys of the map `visitedUrls`. -/
def visitURL {U : Type} (lib : URLLib U) (domain : U) (visitedUrls : List String) (url : U) :
    List String × Decision U :=
  let url := lib.resolve domain url
  if lib.hostname url ≠ lib.hostname domain then
    (visitedUrls, .done)
  else if lib.str url ∈ visitedUrls then
    (visitedUrls, .done)
  else
    (lib.str url :: visitedUrls, .visit url)

/-- The state of `visitPages` together with a record of its effects. -/
structure Dispatch (U : Type) where
  /-- keys of the map `visitedUrls` -/
  visitedUrls : List String
  /-- the urls handed to `go crawler.visitPage`, in order -/
  started : List U
  /-- the number of `crawler.complete.Done()` calls -/
  dones : Nat

/-- `visitPages` run on the sequence of urls it receives from `urlsToVisit`,
continuing from a given state. -/
def visitPagesFrom {U : Type} (lib : URLLib U) (domain : U) : Dispatch U → List U → Dispatch U
  | st, [] => st
  | st, url :: rest =>
    match visitURL lib domain st.visitedUrls url with
    | (v, .done) =>
      visitPagesFrom lib domain { visitedUrls := v, started := st.started, dones := st.dones + 1 } rest
    | (v, .visit u) =>
      visitPagesFrom lib domain { visitedUrls := v, started := st.started ++ [u], dones := st.dones } rest

/-- `visitPages` from its initial state (`visitedUrls := map[string]bool{}`). -/
def visitPages {U : Type} (lib : URLLib U) (domain : U) (urls : List U) : Dispatch U :=
  visitPagesFrom lib domain { visitedUrls := [], started := [], dones := 0 } urls

/-! ## crawler.go: the goroutines of `Crawl` as a transition system -/

/-- Where `Crawl` and its waiter goroutine stand. -/
inductive Phase where
  /-- before `crawler.queueURL(crawler.domain)` -/
  | start
  /-- in `queueURL`, after `complete.Add(1)`, blocked on `urlsToVisit <- url` -/
  | added
  /-- `Crawl` has returned; the waiter is in `complete.Wait()` -/
  | waiting
  /-- `complete.Wait()` has returned; the channels are not yet closed -/
  | woken
  /-- the waiter has closed `results`, `urlsToVisit` and `pagesCrawled` -/
  | closed
  deriving DecidableEq, Repr

/-- Where the `visitPages` goroutine stands. -/
inductive DispPc (U : Type) where
  /-- blocked in `range crawler.urlsToVisit` -/
  | idle
  /-- has received `url`, about to run the loop body -/
  | got (url : U)

/-- Where the `processPages` goroutine stands. -/
inductive AggPc (U : Type) where
  /-- blocked in `range crawler.pagesCrawled` -/
  | idle
  /-- in `for _, link := range page.links` with `rest` still to queue; with
  `rest = []` the next statement is `results <- page` -/
  | links (page : Page U) (rest : List U)
  /-- in `queueURL(link)`, after `complete.Add(1)`, blocked on the send -/
  | sending (page : Page U) (link : U) (rest : List U)
  /-- about to call `crawler.complete.Done()` -/
  | finishing

/-- The state of a crawl. -/
structure State (U : Type) where
  phase : Phase
  /-- the counter of the WaitGroup `complete` -/
  complete : Int
  /-- keys of the map `visitedUrls` of `visitPages` -/
  visitedUrls : List String
  disp : DispPc U
  /-- the `visitPage` goroutines that have not yet sent on `pagesCrawled` -/
  fetching : List U
  agg : AggPc U
  /-- the pages sent on `results` so far -/
  results : List (Page U)
  /-- a goroutine has panicked: a send on a closed channel, or a negative
  WaitGroup counter -/
  panicked : Bool
  /-- record: every url handed to `go crawler.visitPage`, in order -/
  fetched : List U
  /-- record: the number of `complete.Add(1)` calls -/
  adds : Nat
  /-- record: the number of `complete.Done()` calls -/
  dones : Nat

/-- The atomic steps of the goroutines. -/
inductive Action where
  /-- `Crawl`: `complete.Add(1)` of `queueURL(domain)` -/
  | crawlAdd
  /-- `Crawl`: `urlsToVisit <- domain` meets the receive of `visitPages`;
  `Crawl` starts the waiter and returns -/
  | crawlSend
  /-- `visitPages`: the loop body for the url it holds -/
  | dispatch
  /-- the `i`-th pending `visitPage` sends its outcome on `pagesCrawled` and
  `processPages` receives it -/
  | deliver (i : Nat)
  /-- `processPages`: `complete.Add(1)` of `queueURL(link)` -/
  | queueAdd
  /-- `processPages`: `urlsToVisit <- link` meets the receive of `visitPages` -/
  | queueSend
  /-- `processPages`: `results <- page`, taken by the consumer -/
  | forward
  /-- `processPages`: `complete.Done()` -/
  | aggDone
  /-- the waiter: `complete.Wait()` returns, the counter being zero -/
  | wake
  /-- the waiter: `close(results)`, `close(urlsToVisit)`, `close(pagesCrawled)` -/
  | close
  deriving DecidableEq, Repr

/-- The state before `Crawl` queues the domain. -/
def State.init (U : Type) : State U :=
  { phase := .start, complete := 0, visitedUrls := [], disp := .idle, fetching := [],
    agg := .idle, results := [], panicked := false, fetched := [], adds := 0, dones := 0 }

/-- A goroutine panics. -/
def State.panic {U : Type} (s : State U) : State U :=
  { s with panicked := true }

/-- `complete.Done()`: it panics when the counter would become negative. -/
def State.done {U : Type} (s : State U) : State U :=
  if s.complete ≤ 0 then s.panic
  else { s with complete := s.complete - 1, dones := s.dones + 1 }

/-- One atomic step; `none` when the action is not enabled. -/
def step {U : Type} (lib : URLLib U) (get : String → Except String Response) (domain : U)
    (a : Action) (s : State U) : Option (State U) :=
  if s.panicked then none else
  match a with
  | .crawlAdd =>
    match s.phase with
    | .start => some { s with phase := .added, complete := s.complete + 1, adds := s.adds + 1 }
    | _ => none
  | .crawlSend =>
    match s.phase, s.disp with
    | .added, .idle => some { s with phase := .waiting, disp := .got domain }
    | _, _ => none
  | .dispatch =>
    match s.disp with
    | .got url =>
      match visitURL lib domain s.visitedUrls url with
      | (v, .done) => some ({ s with disp := .idle, visitedUrls := v }).done
      | (v, .visit u) =>
        some { s with disp := .idle, visitedUrls := v, fetching := s.fetching ++ [u],
                      fetched := s.fetched ++ [u] }
    | .idle => none
  | .deliver i =>
    match s.fetching[i]? with
    | some u =>
      if s.phase = .closed then some s.panic else
      match s.agg with
      | .idle =>
        match visitPage lib get u with
        | none => some { s with fetching := s.fetching.eraseIdx i, agg := .finishing }
        | some page =>
          some { s with fetching := s.fetching.eraseIdx i, agg := .links page page.links }
      | _ => none
    | none => none
  | .queueAdd =>
    match s.agg with
    | .links page (link :: rest) =>
      some { s with agg := .sending page link rest, complete := s.complete + 1,
                    adds := s.adds + 1 }
    | _ => none
  | .queueSend =>
    match s.agg with
    | .sending page link rest =>
      if s.phase = .closed then some s.panic else
      match s.disp with
      | .idle => some { s with agg := .links page rest, disp := .got link }
      | _ => none
    | _ => none
  | .forward =>
    match s.agg with
    | .links page [] =>
      if s.phase = .closed then some s.panic
      else some { s with agg := .finishing, results := s.results ++ [page] }
    | _ => none
  | .aggDone =>
    match s.agg with
    | .finishing => some ({ s with agg := .idle }).done
    | _ => none
  | .wake =>
    match s.phase with
    | .waiting => if s.complete = 0 then some { s with phase := .woken } else none
    | _ => none
  | .close =>
    match s.phase with
    | .woken => some { s with phase := .closed }
    | _ => none

/-- Run a schedule (a sequence of actions); `none` when one of them is not
enabled. -/
def run {U : Type} (lib : URLLib U) (get : String → Except String Response) (domain : U) :
    List Action → State U → Option (State U)
  | [], s => some s
  | a :: rest, s =>
    match step lib get domain a s with
    | none => none
    | some t => run lib get domain rest t

/-- The states a crawl of `domain` can be in. -/
def Reachable {U : Type} (lib : URLLib U) (get : String → Except String Response) (domain : U)
    (s : State U) : Prop :=
  ∃ acts, run lib get domain acts (State.init U) = some s

/-! ## Link extraction as the specification words it -/

mutual
/-- The nodes of a tree in document (pre-order) order. -/
def preorder : Node → List Node
  | .mk ty d attrs cs => .mk ty d attrs cs :: preorderAll cs
/-- Pre-order of a sequence of siblings. -/
def preorderAll : List Node → List Node
  | [] => []
  | c :: cs => preorder c ++ preorderAll cs
end

/-- An anchor element: an element node whose tag name is `a`. -/
def isAnchor (n : Node) : Bool :=
  decide (n.type = NodeType.ElementNode) && decide (n.data = "a")

/-- The link an anchor contributes: its `href` attribute (the first attribute
with that key), trimmed, when that is non-empty and parses as a URL. -/
def hrefLink {U : Type} (lib : URLLib U) (n : Node) : Option U :=
  match n.attr.find? (fun a => decide (a.Key = "href")) with
  | none => none
  | some a => if lib.trimSpace a.Val = "" then none else lib.parse (lib.trimSpace a.Val)

/-- The links of a document as the specification describes them. -/
def specLinks {U : Type} (lib : URLLib U) (doc : Node) : List U :=
  ((preorder doc).filter isAnchor).filterMap (hrefLink lib)

/-! ## A small instance of the url library, for concrete scenarios -/

/-- A url with a scheme, a hostname, a port and a path (each possibly empty). -/
structure SimpleURL where
  scheme : String
  host : String
  port : String
  path : String
  deriving DecidableEq, Repr

namespace SimpleURL

/-- The text of a url: `scheme://host:port/path`, empty parts left out. -/
def render (u : SimpleURL) : String :=
  (if u.scheme = "" then "" else u.scheme ++ ":") ++
  (if u.host = "" then "" else "//" ++ u.host ++ (if u.port = "" then "" else ":" ++ u.port)) ++
  u.path

/-- Split `host[:port][/path]`. -/
def ofAuthority (scheme : String) (rest : List Char) : SimpleURL :=
  let hostport := rest.takeWhile (fun c => c != '/')
  { scheme := scheme,
    host := String.mk (hostport.takeWhile (fun c => c != ':')),
    port := String.mk ((hostport.dropWhile (fun c => c != ':')).drop 1),
    path := String.mk (rest.dropWhile (fun c => c != '/')) }

/-- Reads absolute-path references and absolute `http`/`https` urls; anything
else is rejected. -/
def read (raw : String) : Option SimpleURL :=
  match raw.toList with
  | '/' :: _ => some { scheme := "", host := "", port := "", path := raw }
  | 'h' :: 't' :: 't' :: 'p' :: ':' :: '/' :: '/' :: rest => some (ofAuthority "http" rest)
  | 'h' :: 't' :: 't' :: 'p' :: 's' :: ':' :: '/' :: '/' :: rest => some (ofAuthority "https" rest)
  | _ => none

/-- Resolution of an absolute url or an absolute-path reference. -/
def resolveReference (base ref : SimpleURL) : SimpleURL :=
  if ref.scheme ≠ "" then ref
  else if ref.host ≠ "" then { ref with scheme := base.scheme }
  else if ref.path = "" then base
  else { base with path := ref.path }

/-- Removes leading and trailing white space. -/
def trim (raw : String) : String :=
  String.mk ((raw.toList.dropWhile Char.isWhitespace).reverse.dropWhile Char.isWhitespace).reverse

end SimpleURL

/-- The small url library. -/
def simpleLib : URLLib SimpleURL where
  resolve := SimpleURL.resolveReference
  hostname := fun u => u.host
  str := SimpleURL.render
  parse := SimpleURL.read
  trimSpace := SimpleURL.trim

/-- The url `http://example.test`. -/
def exampleRoot : SimpleURL :=
  { scheme := "http", host := "example.test", port := "", path := "" }

/-- An absolute-path reference. -/
def pathRef (path : String) : SimpleURL :=
  { scheme := "", host := "", port := "", path := path }

/-! ## Sites for concrete scenarios -/

/-- The element `<a href="...">Link</a>`. -/
def anchor (href : String) : Node :=
  .mk .ElementNode "a" [{ Namespace := "", Key := "href", Val := href }]
    [.mk .TextNode "Link" [] []]

/-- The document `<html><head></head><body>...</body></html>`. -/
def htmlDoc (body : List Node) : Node :=
  .mk .DocumentNode "" []
    [.mk .ElementNode "html" [] [.mk .ElementNode "head" [] [], .mk .ElementNode "body" [] body]]

/-- A `200 OK` response carrying an HTML document. -/
def htmlResponse (body : List Node) : Response :=
  { statusCode := 200, status := "200 OK", contentType := "text/html; charset=utf-8",
    body := .ok (htmlDoc body) }

/-- A `404 Not Found` response. -/
def notFoundResponse : Response :=
  { statusCode := 404, status := "404 Not Found", contentType := "text/plain; charset=utf-8",
    body := .ok (htmlDoc []) }

/-- A site that answers `404 Not Found` everywhere. -/
def notFoundSite : String → Except String Response :=
  fun _ => .ok notFoundResponse

/-- A site that answers `204 No Content`, with an HTML content type,
everywhere. -/
def noContentSite : String → Except String Response :=
  fun _ => .ok { statusCode := 204, status := "204 No Content", contentType := "text/html",
                 body := .ok (htmlDoc []) }

/-- The site of `TestPageWithLinksWithAndWithoutTrailingSlash`. -/
def slashSite : String → Except String Response :=
  fun s =>
    if s = "http://example.test" then
      .ok (htmlResponse [anchor "/subpage", anchor "/subpage/"])
    else if s = "http://example.test/subpage" then .ok (htmlResponse [])
    else if s = "http://example.test/subpage/" then .ok (htmlResponse [])
    else .ok notFoundResponse

/-- The site of `TestPageWithCircularLinksToSameDomain`. -/
def cycleSite : String → Except String Response :=
  fun s =>
    if s = "http://example.test" then .ok (htmlResponse [anchor "/subpage1"])
    else if s = "http://example.test/subpage1" then .ok (htmlResponse [anchor "/subpage2"])
    else if s = "http://example.test/subpage2" then .ok (htmlResponse [anchor "/subpage1"])
    else .ok notFoundResponse

/-- The site of `TestPageWithLinksToOtherDomain`. -/
def otherDomainSite : String → Except String Response :=
  fun s =>
    if s = "http://example.test" then .ok (htmlResponse [anchor "https://other.domain"])
    else .ok notFoundResponse

/-! ## Definitions used to state the properties of a crawl -/

/-- The units of the WaitGroup held on behalf of `Crawl`: the domain url after
`Add(1)` and before `visitPages` has received it. -/
def Phase.units : Phase → Nat
  | .start => 0
  | .added => 1
  | .waiting => 0
  | .woken => 0
  | .closed => 0

/-- The waiter is past `complete.Wait()`. -/
def Phase.drained : Phase → Bool
  | .start => false
  | .added => false
  | .waiting => false
  | .woken => true
  | .closed => true

/-- The unit of the url `visitPages` holds and has not yet decided on. -/
def DispPc.units {U : Type} : DispPc U → Nat
  | .idle => 0
  | .got _ => 1

/-- The units held in `processPages`: one for the outcome being processed, and
one for a link that is queued and not yet received. -/
def AggPc.units {U : Type} : AggPc U → Nat
  | .idle => 0
  | .links _ _ => 1
  | .sending _ _ _ => 2
  | .finishing => 1

/-- The number of urls that are queued, being fetched, or awaiting
aggregation. -/
def State.outstanding {U : Type} (s : State U) : Nat :=
  s.phase.units + s.disp.units + s.fetching.length + s.agg.units

/-- The steps of `step` in which no goroutine panics. -/
inductive Step {U : Type} (lib : URLLib U) (get : String → Except String Response) (domain : U) :
    State U → State U → Prop
  | crawlAdd (s : State U) (hp : s.phase = .start) :
      Step lib get domain s
        { s with phase := .added, complete := s.complete + 1, adds := s.adds + 1 }
  | crawlSend (s : State U) (hp : s.phase = .added) (hd : s.disp = .idle) :
      Step lib get domain s { s with phase := .waiting, disp := .got domain }
  | visit (s : State U) (url : U) (hd : s.disp = .got url)
      (hs : lib.hostname (lib.resolve domain url) = lib.hostname domain)
      (hn : lib.str (lib.resolve domain url) ∉ s.visitedUrls) :
      Step lib get domain s
        { s with disp := .idle, visitedUrls := lib.str (lib.resolve domain url) :: s.visitedUrls,
                 fetching := s.fetching ++ [lib.resolve domain url],
                 fetched := s.fetched ++ [lib.resolve domain url] }
  | discard (s : State U) (url : U) (hd : s.disp = .got url)
      (hc : ¬ (lib.hostname (lib.resolve domain url) = lib.hostname domain ∧
          lib.str (lib.resolve domain url) ∉ s.visitedUrls))
      (hpos : 0 < s.complete) :
      Step lib get domain s
        { s with disp := .idle, complete := s.complete - 1, dones := s.dones + 1 }
  | deliverNil (s : State U) (i : Nat) (u : U) (hf : s.fetching[i]? = some u)
      (hp : s.phase ≠ .closed) (ha : s.agg = .idle) (hv : visitPage lib get u = none) :
      Step lib get domain s { s with fetching := s.fetching.eraseIdx i, agg := .finishing }
  | deliverPage (s : State U) (i : Nat) (u : U) (page : Page U) (hf : s.fetching[i]? = some u)
      (hp : s.phase ≠ .closed) (ha : s.agg = .idle) (hv : visitPage lib get u = some page) :
      Step lib get domain s
        { s with fetching := s.fetching.eraseIdx i, agg := .links page page.links }
  | queueAdd (s : State U) (page : Page U) (link : U) (rest : List U)
      (ha : s.agg = .links page (link :: rest)) :
      Step lib get domain s
        { s with agg := .sending page link rest, complete := s.complete + 1, adds := s.adds + 1 }
  | queueSend (s : State U) (page : Page U) (link : U) (rest : List U)
      (ha : s.agg = .sending page link rest) (hp : s.phase ≠ .closed) (hd : s.disp = .idle) :
      Step lib get domain s { s with agg := .links page rest, disp := .got link }
  | forward (s : State U) (page : Page U) (ha : s.agg = .links page [])
      (hp : s.phase ≠ .closed) :
      Step lib get domain s { s with agg := .finishing, results := s.results ++ [page] }
  | aggDone (s : State U) (ha : s.agg = .finishing) (hpos : 0 < s.complete) :
      Step lib get domain s
        { s with agg := .idle, complete := s.complete - 1, dones := s.dones + 1 }
  | wake (s : State U) (hp : s.phase = .waiting) (hc : s.complete = 0) :
      Step lib get domain s { s with phase := .woken }
  | close (s : State U) (hp : s.phase = .woken) :
      Step lib get domain s { s with phase := .closed }

/-- The counter of `complete` accounts for the outstanding urls, and no
goroutine has panicked. -/
structure Accounted {U : Type} (s : State U) : Prop where
  calm : s.panicked = false
  counter : s.complete = (s.outstanding : Int)
  balance : s.adds = s.dones + s.outstanding
  quiet : s.phase.drained = true → s.outstanding = 0

/-- The urls handed to `visitPage` have pairwise different strings, all in the map. -/
def Dispatch.Distinct {U : Type} (lib : URLLib U) (st : Dispatch U) : Prop :=
  (st.started.map lib.str).Nodup ∧ ∀ u ∈ st.started, lib.str u ∈ st.visitedUrls

/-- The links on the outcome of visiting a url (none for a skip). -/
def linksOf {U : Type} (lib : URLLib U) (get : String → Except String Response) (url : U) :
    List U :=
  match visitPage lib get url with
  | none => []
  | some page => page.links

/-- The urls a crawl of `domain` is to fetch: in scope, and either the
resolved domain itself or the resolution against the domain of a link on the
page of such a url. -/
inductive Crawlable {U : Type} (lib : URLLib U) (get : String → Except String Response)
    (domain : U) : U → Prop
  | seed (hs : lib.hostname (lib.resolve domain domain) = lib.hostname domain) :
      Crawlable lib get domain (lib.resolve domain domain)
  | link (u l : U) (hu : Crawlable lib get domain u) (hl : l ∈ linksOf lib get u)
      (hs : lib.hostname (lib.resolve domain l) = lib.hostname domain) :
      Crawlable lib get domain (lib.resolve domain l)

/-- A candidate: the domain, or a link on the page of a crawlable url. -/
def Candidate {U : Type} (lib : URLLib U) (get : String → Except String Response)
    (domain : U) (c : U) : Prop :=
  c = domain ∨ ∃ u, Crawlable lib get domain u ∧ c ∈ linksOf lib get u

/-- The url `Crawl` has queued and `visitPages` has not yet received. -/
def Phase.held {U : Type} (domain : U) : Phase → List U
  | .start => []
  | .added => [domain]
  | .waiting => []
  | .woken => []
  | .closed => []

/-- The url `visitPages` holds. -/
def DispPc.held {U : Type} : DispPc U → List U
  | .idle => []
  | .got c => [c]

/-- The links `processPages` has still to hand over. -/
def AggPc.held {U : Type} : AggPc U → List U
  | .idle => []
  | .links _ rest => rest
  | .sending _ link rest => link :: rest
  | .finishing => []

/-- The candidates that are in the hands of a goroutine. -/
def State.held {U : Type} (domain : U) (s : State U) : List U :=
  s.phase.held domain ++ s.disp.held ++ s.agg.held

/-- The page `processPages` is working on and has not yet forwarded. -/
def AggPc.current {U : Type} : AggPc U → List (Page U)
  | .idle => []
  | .links page _ => [page]
  | .sending page _ _ => [page]
  | .finishing => []

/-- Everything in the state comes from the crawl of the site. -/
structure Sound {U : Type} (lib : URLLib U) (get : String → Except String Response)
    (domain : U) (s : State U) : Prop where
  fetched : ∀ u ∈ s.fetched, Crawlable lib get domain u
  fetching : ∀ u ∈ s.fetching, u ∈ s.fetched
  held : ∀ c ∈ s.held domain, Candidate lib get domain c
  current : ∀ p ∈ s.agg.current, ∃ u ∈ s.fetched, visitPage lib get u = some p
  results : ∀ p ∈ s.results, ∃ u ∈ s.fetched, visitPage lib get u = some p

/-- The state of `visitPages` is that of the loop run on some sequence of
received urls. -/
def Folded {U : Type} (lib : URLLib U) (domain : U) (s : State U) : Prop :=
  ∃ urls, (visitPages lib domain urls).visitedUrls = s.visitedUrls ∧
    (visitPages lib domain urls).started = s.fetched

/-- Visiting the url yields a Page (it is not a skip). -/
def yieldsPage {U : Type} (lib : URLLib U) (get : String → Except String Response) (u : U) :
    Bool :=
  (visitPage lib get u).isSome

/-- The locations of the pages sent on `results`, of the page `processPages`
is working on, and of the pending fetches that will yield a Page, are together
the fetched urls that yield a Page, each as often. -/
def Tracked {U : Type} (lib : URLLib U) (get : String → Except String Response)
    (s : State U) : Prop :=
  (s.results.map Page.location ++ s.agg.current.map Page.location ++
      s.fetching.filter (yieldsPage lib get)).Perm
    (s.fetched.filter (yieldsPage lib get))

/-- A candidate is handled: it is in the hands of a goroutine, or, when it is
in scope, its resolved string is in the map `visitedUrls`. -/
def Handled {U : Type} (lib : URLLib U) (domain : U) (s : State U) (c : U) : Prop :=
  c ∈ s.held domain ∨
    (lib.hostname (lib.resolve domain c) = lib.hostname domain →
      lib.str (lib.resolve domain c) ∈ s.visitedUrls)

/-- No candidate is lost: the domain is handled once `Crawl` has queued it,
and the links on the page of every fetched url are handled once its outcome
has been received. -/
structure Closing {U : Type} (lib : URLLib U) (get : String → Except String Response)
    (domain : U) (s : State U) : Prop where
  seed : s.phase = .start ∨ Handled lib domain s domain
  links : ∀ u ∈ s.fetched, u ∈ s.fetching ∨ ∀ l ∈ linksOf lib get u, Handled lib domain s l

/-- The invariant of a crawl. -/
structure Invariant {U : Type} (lib : URLLib U) (get : String → Except String Response)
    (domain : U) (s : State U) : Prop where
  accounted : Accounted s
  sound : Sound lib get domain s
  folded : Folded lib domain s
  tracked : Tracked lib get s
  closing : Closing lib get domain s
  seeded : s.phase ≠ .start → 1 ≤ s.adds

/-- The site is finite: the strings of the urls to fetch are among those of
the list `univ`. -/
def FiniteSite {U : Type} (lib : URLLib U) (get : String → Except String Response)
    (domain : U) (univ : List U) : Prop :=
  ∀ u, Crawlable lib get domain u → lib.str u ∈ univ.map lib.str

/-- The steps `Crawl` and the waiter have still to take. -/
def Phase.cost : Phase → Nat
  | .start => 5
  | .added => 4
  | .waiting => 2
  | .woken => 1
  | .closed => 0

/-- The step `visitPages` has to take for the url it holds. -/
def DispPc.cost {U : Type} : DispPc U → Nat
  | .idle => 0
  | .got _ => 1

/-- The steps it takes to finish the outcome `processPages` is working on:
three for each link still to queue (add, send, dispatch), the forwarding and
the `Done`. -/
def AggPc.cost {U : Type} : AggPc U → Nat
  | .idle => 0
  | .links _ rest => 3 * rest.length + 2
  | .sending _ _ rest => 3 * rest.length + 4
  | .finishing => 1

/-- The steps a started `visitPage` stands for: its delivery and the
processing of its outcome. -/
def fetchCost {U : Type} (lib : URLLib U) (get : String → Except String Response) (u : U) :
    Nat :=
  match visitPage lib get u with
  | none => 2
  | some page => 3 * page.links.length + 3

/-- A bound on the number of steps a crawl can still take from a state, when
the urls to fetch are among `univ`. -/
def State.potential {U : Type} (lib : URLLib U) (get : String → Except String Response)
    (univ : List U) (s : State U) : Nat :=
  s.phase.cost + s.disp.cost + (s.fetching.map (fetchCost lib get)).sum + s.agg.cost +
    ((univ.filter (fun u => decide (lib.str u ∉ s.visitedUrls))).map (fetchCost lib get)).sum

/-- Quiescence: nothing is queued, being fetched, or awaiting aggregation, and
the counter is zero. -/
def State.Quiescent {U : Type} (s : State U) : Prop :=
  s.complete = 0 ∧ s.disp = .idle ∧ s.fetching = [] ∧ s.agg = .idle

/-- The url `http://example.test` followed by a path. -/
def examplePage (path : String) : SimpleURL :=
  { scheme := "http", host := "example.test", port := "", path := path }

/-- The urls of `cycleSite`. -/
def cycleUrls : List SimpleURL :=
  [exampleRoot, examplePage "/subpage1", examplePage "/subpage2"]

/-- The urls of `slashSite`. -/
def slashUrls : List SimpleURL :=
  [exampleRoot, examplePage "/subpage", examplePage "/subpage/"]

/-- A schedule of the crawl of `otherDomainSite` up to its close. -/
def otherDomainSchedule : List Action :=
  [.crawlAdd, .crawlSend, .dispatch, .deliver 0, .queueAdd, .queueSend, .dispatch, .forward,
    .aggDone, .wake, .close]

/-- The first steps of a crawl of `cycleSite`: the page of the domain has
been received and its link has been added to the counter. -/
def cycleStart : List Action :=
  [.crawlAdd, .crawlSend, .dispatch, .deliver 0, .queueAdd]

/-- The state at the close of `otherDomainSchedule`. -/
def otherDomainFinal : State SimpleURL :=
  { phase := .closed, complete := 0, visitedUrls := ["http://example.test"], disp := .idle,
    fetching := [], agg := .idle,
    results := [{ location := exampleRoot,
                  links := [{ scheme := "https", host := "other.domain", port := "", path := "" }],
                  err := none }],
    panicked := false, fetched := [exampleRoot], adds := 2, dones := 2 }

/-- The state after `cycleStart`. -/
def cycleStarted : State SimpleURL :=
  { phase := .waiting, complete := 2, visitedUrls := ["http://example.test"], disp := .idle,
    fetching := [],
    agg := .sending { location := exampleRoot, links := [pathRef "/subpage1"], err := none }
      (pathRef "/subpage1") [],
    results := [], panicked := false, fetched := [exampleRoot], adds := 2, dones := 0 }

/-! # Theorems -/

/-! ## Link extraction -/

theorem getAttributeValueAsURLLoop_href {U : Type} (lib : URLLib U) (attrs : List Attribute) :
    getAttributeValueAsURLLoop lib attrs "href" =
      match attrs.find? (fun a => decide (a.Key = "href")) with
      | none => none
      | some a => if lib.trimSpace a.Val = "" then none else lib.parse (lib.trimSpace a.Val) := by
  induction attrs with
  | nil => rfl
  | cons a rest ih =>
    by_cases hk : a.Key = "href"
    · simp only [getAttributeValueAsURLLoop, hk, ne_eq, not_true_eq_false, if_false,
        List.find?_cons, decide_True]
      by_cases he : lib.trimSpace a.Val = ""
      · simp [he]
      · simp only [he, if_false]
        cases lib.parse (lib.trimSpace a.Val) <;> rfl
    · simp only [getAttributeValueAsURLLoop, ne_eq, hk, not_false_eq_true, if_true,
        List.find?_cons, decide_False]
      exact ih

theorem getAttributeValueAsURL_eq_hrefLink {U : Type} (lib : URLLib U) (n : Node) :
    getAttributeValueAsURL lib n "href" = hrefLink lib n := by
  unfold getAttributeValueAsURL hrefLink
  exact getAttributeValueAsURLLoop_href lib n.attr

/-- What the callback of `processHTMLContent` does on one visited node. -/
theorem extractLinks_element {U : Type} (lib : URLLib U) (page : Page U) (n : Node)
    (hn : n.type = NodeType.ElementNode) :
    extractLinksFromNode lib page n =
      { page with links := page.links ++ ([n].filter isAnchor).filterMap (hrefLink lib) } := by
  unfold extractLinksFromNode
  by_cases hd : n.data = "a"
  · rw [if_pos hd, getAttributeValueAsURL_eq_hrefLink]
    have : isAnchor n = true := by simp [isAnchor, hn, hd]
    cases h : hrefLink lib n <;> simp [List.filter, this, h]
  · rw [if_neg hd]
    have : isAnchor n = false := by simp [isAnchor, hd]
    simp [List.filter, this]

theorem not_isAnchor_of_not_element (n : Node) (hn : n.type ≠ NodeType.ElementNode) :
    isAnchor n = false := by
  simp [isAnchor, hn]

mutual
theorem visitHTMLNode_links {U : Type} (lib : URLLib U) :
    ∀ (n : Node) (page : Page U),
      visitHTMLNode (fun node page => extractLinksFromNode lib page node) n page =
        { page with links := page.links ++ ((preorder n).filter isAnchor).filterMap (hrefLink lib) }
  | .mk ty d attrs cs, page => by
    rw [visitHTMLNode, preorder]
    by_cases hty : ty = NodeType.ElementNode
    · subst hty
      simp only [if_true]
      rw [visitHTMLChildren_links lib cs,
        extractLinks_element lib page (Node.mk NodeType.ElementNode d attrs cs) rfl]
      have e : Node.mk NodeType.ElementNode d attrs cs :: preorderAll cs =
          [Node.mk NodeType.ElementNode d attrs cs] ++ preorderAll cs := rfl
      rw [e, List.filter_append, List.filterMap_append, List.append_assoc]
    · simp only [hty, if_false]
      rw [visitHTMLChildren_links lib cs]
      have : isAnchor (.mk ty d attrs cs) = false :=
        not_isAnchor_of_not_element _ (by simpa [Node.type] using hty)
      simp [List.filter_cons, this]
theorem visitHTMLChildren_links {U : Type} (lib : URLLib U) :
    ∀ (cs : List Node) (page : Page U),
      visitHTMLChildren (fun node page => extractLinksFromNode lib page node) cs page =
        { page with
          links := page.links ++ ((preorderAll cs).filter isAnchor).filterMap (hrefLink lib) }
  | [], page => by simp [visitHTMLChildren, preorderAll]
  | c :: rest, page => by
    rw [visitHTMLChildren, visitHTMLNode_links lib c, visitHTMLChildren_links lib rest, preorderAll]
    simp [List.filter_append, List.filterMap_append, List.append_assoc]
end

/-- The Page `processHTMLContent` returns for a parsed document. -/
theorem processHTMLContent_ok {U : Type} (lib : URLLib U) (url : U) (doc : Node) :
    processHTMLContent lib url (.ok doc) =
      { location := url, links := specLinks lib doc, err := none } := by
  simp [processHTMLContent, visitHTMLNode_links, specLinks]

/-- C10. For every parsed document tree, the Page returned by
`processHTMLContent` has the given location, no error, and as links exactly,
in document (pre-order) order, the parsed url of the trimmed `href` value of
each anchor element whose `href` is present, non-empty after trimming and
parsable; every other node contributes nothing. -/
theorem processHTMLContent_links {U : Type} (lib : URLLib U) (url : U) (doc : Node) :
    processHTMLContent lib url (.ok doc) =
      { location := url, links := specLinks lib doc, err := none } := by
  show visitHTMLNode (fun node page => extractLinksFromNode lib page node) doc
      { location := url, links := [], err := none } = _
  rw [visitHTMLNode_links]
  rfl

/-! ## The page fetcher -/

/-- The delivery of a Page without links: `processPages` receives it and has
no link to queue. -/
theorem step_deliver_page {U : Type} (lib : URLLib U) (get : String → Except String Response)
    (domain : U) (url : U) (page : Page U) (hv : visitPage lib get url = some page)
    (s : State U) (i : Nat) (hcalm : s.panicked = false) (hp : s.phase ≠ .closed)
    (ha : s.agg = .idle) (hf : s.fetching[i]? = some url) :
    step lib get domain (.deliver i) s =
      some { s with fetching := s.fetching.eraseIdx i, agg := .links page page.links } := by
  simp [step, hcalm, hp, ha, hf, hv]

/-- C8. When the GET fails at the transport level, or the response status is
not `200 OK` (so in particular whenever it is not a success status),
`visitPage` yields exactly one Page: its location is the url, its links are
empty, and its error is present: the transport error, or for a status failure
the text `non-successful response from '<url>', status: '<status>'`; and the
crawl goes on: `processPages` receives that Page as any other, with no link to
queue. -/
theorem visitPage_failure {U : Type} (lib : URLLib U) (get : String → Except String Response)
    (domain : U) (url : U)
    (h : (∃ e, get (lib.str url) = .error e) ∨
         (∃ resp, get (lib.str url) = .ok resp ∧ resp.statusCode ≠ StatusOK)) :
    ∃ page, visitPage lib get url = some page ∧ page.location = url ∧ page.links = [] ∧
      (∀ e, get (lib.str url) = .error e → page.err = some e) ∧
      (∀ resp, get (lib.str url) = .ok resp →
        page.err = some ("non-successful response from \x27" ++ lib.str url ++
          "\x27, status: \x27" ++ resp.status ++ "\x27")) ∧
      (∀ (s : State U) (i : Nat), s.panicked = false → s.phase ≠ .closed → s.agg = .idle →
        s.fetching[i]? = some url →
        step lib get domain (.deliver i) s =
          some { s with fetching := s.fetching.eraseIdx i, agg := .links page [] }) := by
  rcases h with ⟨e, he⟩ | ⟨resp, hr, hs⟩
  · have hv : visitPage lib get url = some { location := url, links := [], err := some e } := by
      simp [visitPage, he]
    refine ⟨_, hv, rfl, rfl, ?_, ?_, ?_⟩
    · intro e' he'; rw [he] at he'; cases he'; rfl
    · intro resp hr; rw [he] at hr; cases hr
    · intro s i hcalm hp ha hf
      exact step_deliver_page lib get domain url _ hv s i hcalm hp ha hf
  · have hv : visitPage lib get url =
        some { location := url, links := [], err := some (statusError lib url resp.status) } := by
      simp [visitPage, hr, hs]
    refine ⟨_, hv, rfl, rfl, ?_, ?_, ?_⟩
    · intro e he; rw [hr] at he; cases he
    · intro resp' hr'; rw [hr] at hr'; cases hr'; rfl
    · intro s i hcalm hp ha hf
      exact step_deliver_page lib get domain url _ hv s i hcalm hp ha hf

/-- The domain of `notFoundSite`: a Page with the `404 Not Found` error. -/
theorem visitPage_failure_witness :
    ∃ page, visitPage simpleLib notFoundSite exampleRoot = some page ∧
      page.location = exampleRoot ∧ page.links = [] ∧
      page.err = some "non-successful response from 'http://example.test', status: '404 Not Found'" := by
  obtain ⟨page, h1, h2, h3, _, h5, _⟩ :=
    visitPage_failure simpleLib notFoundSite exampleRoot exampleRoot (Or.inr ⟨_, rfl, by decide⟩)
  exact ⟨page, h1, h2, h3, by rw [h5 _ rfl]; decide⟩

/-- A response with the success status `204 No Content` gets a status error. -/
theorem visitPage_status_204 :
    (200 : Int) ≤ 204 ∧ (204 : Int) < 300 ∧
    visitPage simpleLib noContentSite exampleRoot =
      some { location := exampleRoot, links := [],
             err := some "non-successful response from 'http://example.test', status: '204 No Content'" } := by
  refine ⟨by decide, by decide, ?_⟩
  rfl


/-! ## The frontier dispatcher -/

theorem visitURL_eq {U : Type} (lib : URLLib U) (domain : U) (v : List String) (url : U) :
    visitURL lib domain v url =
      if lib.hostname (lib.resolve domain url) = lib.hostname domain ∧
          lib.str (lib.resolve domain url) ∉ v then
        (lib.str (lib.resolve domain url) :: v, .visit (lib.resolve domain url))
      else (v, .done) := by
  unfold visitURL
  by_cases h1 : lib.hostname (lib.resolve domain url) = lib.hostname domain
  · by_cases h2 : lib.str (lib.resolve domain url) ∈ v <;> simp [h1, h2]
  · simp [h1]

theorem visitPagesFrom_cons {U : Type} (lib : URLLib U) (domain : U) (st : Dispatch U) (url : U)
    (rest : List U) :
    visitPagesFrom lib domain st (url :: rest) =
      visitPagesFrom lib domain
        (if lib.hostname (lib.resolve domain url) = lib.hostname domain ∧
            lib.str (lib.resolve domain url) ∉ st.visitedUrls then
          { visitedUrls := lib.str (lib.resolve domain url) :: st.visitedUrls,
            started := st.started ++ [lib.resolve domain url], dones := st.dones }
        else { visitedUrls := st.visitedUrls, started := st.started, dones := st.dones + 1 })
        rest := by
  rw [visitPagesFrom, visitURL_eq]
  split_ifs <;> rfl

theorem visitPagesFrom_append {U : Type} (lib : URLLib U) (domain : U) (a b : List U) :
    ∀ st : Dispatch U, visitPagesFrom lib domain st (a ++ b) =
      visitPagesFrom lib domain (visitPagesFrom lib domain st a) b := by
  induction a with
  | nil => intro st; rfl
  | cons x a ih => intro st; rw [List.cons_append, visitPagesFrom_cons, visitPagesFrom_cons, ih]

theorem visitPagesFrom_distinct {U : Type} (lib : URLLib U) (domain : U) (urls : List U) :
    ∀ st : Dispatch U, st.Distinct lib → (visitPagesFrom lib domain st urls).Distinct lib := by
  induction urls with
  | nil => intro st h; exact h
  | cons x rest ih =>
    intro st h
    rw [visitPagesFrom_cons]
    apply ih
    split_ifs with hc
    · refine ⟨?_, ?_⟩
      · simp only [List.map_append, List.map_cons, List.map_nil]
        rw [List.nodup_append]
        refine ⟨h.1, List.nodup_singleton _, ?_⟩
        intro w hw hw2
        simp only [List.mem_singleton] at hw2
        subst hw2
        obtain ⟨u, hu, he⟩ := List.mem_map.1 hw
        exact hc.2 (he ▸ h.2 u hu)
      · intro u hu
        rcases List.mem_append.1 hu with hu | hu
        · exact List.mem_cons_of_mem _ (h.2 u hu)
        · simp only [List.mem_singleton] at hu
          subst hu
          exact List.mem_cons_self _ _
    · exact h

theorem visitPagesFrom_visited_suffix {U : Type} (lib : URLLib U) (domain : U) (urls : List U) :
    ∀ st : Dispatch U, st.visitedUrls <:+ (visitPagesFrom lib domain st urls).visitedUrls := by
  induction urls with
  | nil => intro st; exact List.suffix_refl _
  | cons x rest ih =>
    intro st
    rw [visitPagesFrom_cons]
    refine List.IsSuffix.trans ?_ (ih _)
    split_ifs
    · exact List.suffix_cons _ _
    · exact List.suffix_refl _

theorem visitPagesFrom_started_prefix {U : Type} (lib : URLLib U) (domain : U) (urls : List U) :
    ∀ st : Dispatch U, st.started <+: (visitPagesFrom lib domain st urls).started := by
  induction urls with
  | nil => intro st; exact List.prefix_refl _
  | cons x rest ih =>
    intro st
    rw [visitPagesFrom_cons]
    refine List.IsPrefix.trans ?_ (ih _)
    split_ifs
    · exact List.prefix_append _ _
    · exact List.prefix_refl _

theorem visitPagesFrom_visited_origin {U : Type} (lib : URLLib U) (domain : U) (urls : List U) :
    ∀ st : Dispatch U, ∀ w ∈ (visitPagesFrom lib domain st urls).visitedUrls,
      w ∈ st.visitedUrls ∨ ∃ c ∈ urls, w = lib.str (lib.resolve domain c) := by
  induction urls with
  | nil => intro st w hw; exact Or.inl hw
  | cons x rest ih =>
    intro st w hw
    rw [visitPagesFrom_cons] at hw
    rcases ih _ w hw with h | ⟨c, hc, rfl⟩
    · split_ifs at h
      · rcases List.mem_cons.1 h with h | h
        · exact Or.inr ⟨x, List.mem_cons_self _ _, h⟩
        · exact Or.inl h
      · exact Or.inl h
    · exact Or.inr ⟨c, List.mem_cons_of_mem _ hc, rfl⟩

/-- C1. For every sequence of urls received by `visitPages`, no two of the
urls handed to `visitPage` have the same string; the map `visitedUrls` after a
prefix of the sequence is kept, entry for entry, in the map after the whole
sequence (nothing is removed); and every url handed to `visitPage` is in the
map. -/
theorem visitPages_at_most_once {U : Type} (lib : URLLib U) (domain : U) (pre post : List U) :
    ((visitPages lib domain (pre ++ post)).started.map lib.str).Nodup ∧
    (visitPages lib domain pre).visitedUrls <:+ (visitPages lib domain (pre ++ post)).visitedUrls ∧
    ∀ u ∈ (visitPages lib domain (pre ++ post)).started,
      lib.str u ∈ (visitPages lib domain (pre ++ post)).visitedUrls := by
  have hd := visitPagesFrom_distinct lib domain (pre ++ post)
    { visitedUrls := [], started := [], dones := 0 } ⟨List.nodup_nil, by simp⟩
  refine ⟨hd.1, ?_, hd.2⟩
  unfold visitPages
  rw [visitPagesFrom_append]
  exact visitPagesFrom_visited_suffix lib domain post _

/-- C7. Deduplication is on the exact string of the resolved url: a received
url that is in scope and whose resolved string differs from that of every url
received before it is handed to its own `visitPage`, whatever follows. -/
theorem visitPages_distinct_string {U : Type} (lib : URLLib U) (domain : U)
    (pre : List U) (url : U) (post : List U)
    (hscope : lib.hostname (lib.resolve domain url) = lib.hostname domain)
    (hnew : ∀ c ∈ pre, lib.str (lib.resolve domain c) ≠ lib.str (lib.resolve domain url)) :
    (visitPages lib domain (pre ++ [url])).started =
        (visitPages lib domain pre).started ++ [lib.resolve domain url] ∧
    lib.resolve domain url ∈ (visitPages lib domain (pre ++ url :: post)).started := by
  have hfresh : lib.str (lib.resolve domain url) ∉ (visitPages lib domain pre).visitedUrls := by
    intro hw
    rcases visitPagesFrom_visited_origin lib domain pre _ _ hw with h | ⟨c, hc, h⟩
    · simp at h
    · exact hnew c hc h.symm
  have h1 : (visitPages lib domain (pre ++ [url])).started =
      (visitPages lib domain pre).started ++ [lib.resolve domain url] := by
    unfold visitPages at hfresh ⊢
    rw [visitPagesFrom_append, visitPagesFrom_cons, if_pos ⟨hscope, hfresh⟩]
    rfl
  refine ⟨h1, ?_⟩
  have e : pre ++ url :: post = (pre ++ [url]) ++ post := by simp
  have hp := visitPagesFrom_started_prefix lib domain post (visitPages lib domain (pre ++ [url]))
  have : (visitPages lib domain (pre ++ url :: post)).started =
      (visitPagesFrom lib domain (visitPages lib domain (pre ++ [url])) post).started := by
    rw [e]; unfold visitPages; rw [visitPagesFrom_append]
  rw [this]
  apply hp.subset
  rw [h1]
  simp

/-! ## The crawl: the counter of the WaitGroup -/

section Crawl
variable {U : Type} (lib : URLLib U) (get : String → Except String Response) (domain : U)

theorem accounted_init : Accounted (State.init U) :=
  ⟨rfl, rfl, rfl, by intro h; cases h⟩

/-- While something is outstanding the waiter is not past `complete.Wait()`. -/
theorem not_drained_of_pos {s : State U} (h : Accounted s) (hpos : 0 < s.outstanding) :
    s.phase ≠ .woken ∧ s.phase ≠ .closed := by
  constructor <;>
  · intro hp
    have := h.quiet (by rw [hp]; rfl)
    omega

theorem length_pos_of_getElem? {α : Type} {l : List α} {i : Nat} {x : α}
    (h : l[i]? = some x) : 0 < l.length := by
  cases l with
  | nil => simp at h
  | cons a l => simp

theorem length_eraseIdx_of_getElem? {α : Type} {l : List α} {i : Nat} {x : α}
    (h : l[i]? = some x) : (l.eraseIdx i).length + 1 = l.length := by
  have hi : i < l.length := by
    by_contra hc
    rw [List.getElem?_eq_none (by omega)] at h
    cases h
  rw [List.length_eraseIdx, if_pos hi]
  omega

/-- A step from an accounted state is a step without panic, and leads to an
accounted state. -/
theorem step_accounted {s t : State U} {a : Action} (h : Accounted s)
    (hs : step lib get domain a s = some t) : Step lib get domain s t ∧ Accounted t := by
  obtain ⟨hcalm, hcount, hbal, hquiet⟩ := h
  rcases s with ⟨phase, complete, visited, disp, fetching, agg, results, panicked, fetched,
    adds, dones⟩
  simp only at hcalm
  subst hcalm
  simp only [State.outstanding] at hcount hbal hquiet
  unfold step at hs
  simp only [Bool.false_eq_true, if_false] at hs
  cases a with
  | crawlAdd =>
    cases phase <;> simp only [reduceCtorEq] at hs
    cases hs
    refine ⟨Step.crawlAdd _ rfl, ⟨rfl, ?_, ?_, ?_⟩⟩
    · simp [State.outstanding, Phase.units] at hcount ⊢; omega
    · simp [State.outstanding, Phase.units] at hbal ⊢; omega
    · intro h; simp [Phase.drained] at h
  | crawlSend =>
    cases phase <;> cases disp <;> simp only [reduceCtorEq] at hs
    cases hs
    refine ⟨Step.crawlSend _ rfl rfl, ⟨rfl, ?_, ?_, ?_⟩⟩
    · simp [State.outstanding, Phase.units, DispPc.units] at hcount ⊢; omega
    · simp [State.outstanding, Phase.units, DispPc.units] at hbal ⊢; omega
    · intro h; simp [Phase.drained] at h
  | dispatch =>
    cases disp with
    | idle => simp only [reduceCtorEq] at hs
    | got url =>
      simp only [visitURL_eq] at hs
      have hpos : 0 < complete := by
        simp [DispPc.units] at hcount; omega
      split_ifs at hs with hc
      · simp only [Option.some.injEq] at hs
        subst hs
        refine ⟨Step.visit _ url rfl hc.1 hc.2, ⟨rfl, ?_, ?_, ?_⟩⟩
        · simp [State.outstanding, DispPc.units] at hcount ⊢; omega
        · simp [State.outstanding, DispPc.units] at hbal ⊢; omega
        · intro h
          have := hquiet h
          simp [DispPc.units] at this
      · simp only [State.done, not_le.2 hpos, if_false, Option.some.injEq] at hs
        subst hs
        refine ⟨Step.discard _ url rfl hc hpos, ⟨rfl, ?_, ?_, ?_⟩⟩
        · simp [State.outstanding, DispPc.units] at hcount ⊢; omega
        · simp [State.outstanding, DispPc.units] at hbal ⊢; omega
        · intro h
          have := hquiet h
          simp [DispPc.units] at this
  | deliver i =>
    simp only at hs
    split at hs
    · next u hf =>
      have hlen := length_pos_of_getElem? hf
      have hlen2 := length_eraseIdx_of_getElem? hf
      have hp : phase ≠ .closed := by
        intro h
        have := hquiet (by rw [h]; rfl)
        omega
      simp only [hp, if_false] at hs
      cases agg <;> simp only [reduceCtorEq] at hs
      split at hs
      · next hv =>
        simp only [Option.some.injEq] at hs
        subst hs
        refine ⟨Step.deliverNil _ i u hf hp rfl hv, ⟨rfl, ?_, ?_, ?_⟩⟩
        · simp [State.outstanding, AggPc.units] at hcount ⊢; omega
        · simp [State.outstanding, AggPc.units] at hbal ⊢; omega
        · intro h
          have := hquiet h
          omega
      · next page hv =>
        simp only [Option.some.injEq] at hs
        subst hs
        refine ⟨Step.deliverPage _ i u page hf hp rfl hv, ⟨rfl, ?_, ?_, ?_⟩⟩
        · simp [State.outstanding, AggPc.units] at hcount ⊢; omega
        · simp [State.outstanding, AggPc.units] at hbal ⊢; omega
        · intro h
          have := hquiet h
          omega
    · cases hs
  | queueAdd =>
    simp only at hs
    split at hs
    · next _ page link rest =>
      simp only [Option.some.injEq] at hs
      subst hs
      refine ⟨Step.queueAdd _ page link rest rfl, ⟨rfl, ?_, ?_, ?_⟩⟩
      · simp [State.outstanding, AggPc.units] at hcount ⊢; omega
      · simp [State.outstanding, AggPc.units] at hbal ⊢; omega
      · intro h
        have := hquiet h
        simp [AggPc.units] at this
    · cases hs
  | queueSend =>
    simp only at hs
    split at hs
    · next _ page link rest =>
      have hp : phase ≠ .closed := by
        intro h
        have := hquiet (by rw [h]; rfl)
        simp [AggPc.units] at this
      simp only [hp, if_false] at hs
      cases disp <;> simp only [reduceCtorEq] at hs
      simp only [Option.some.injEq] at hs
      subst hs
      refine ⟨Step.queueSend _ page link rest rfl hp rfl, ⟨rfl, ?_, ?_, ?_⟩⟩
      · simp [State.outstanding, AggPc.units, DispPc.units] at hcount ⊢; omega
      · simp [State.outstanding, AggPc.units, DispPc.units] at hbal ⊢; omega
      · intro h
        have := hquiet h
        simp [AggPc.units] at this
    · cases hs
  | forward =>
    simp only at hs
    split at hs
    · next _ page =>
      have hp : phase ≠ .closed := by
        intro h
        have := hquiet (by rw [h]; rfl)
        simp [AggPc.units] at this
      simp only [hp, if_false, Option.some.injEq] at hs
      subst hs
      refine ⟨Step.forward _ page rfl hp, ⟨rfl, ?_, ?_, ?_⟩⟩
      · simp [State.outstanding, AggPc.units] at hcount ⊢; omega
      · simp [State.outstanding, AggPc.units] at hbal ⊢; omega
      · intro h
        have := hquiet h
        simp [AggPc.units] at this
    · cases hs
  | aggDone =>
    cases agg <;> simp only [reduceCtorEq] at hs
    have hpos : 0 < complete := by
      simp [AggPc.units] at hcount; omega
    simp only [State.done, not_le.2 hpos, if_false, Option.some.injEq] at hs
    subst hs
    refine ⟨Step.aggDone _ rfl hpos, ⟨rfl, ?_, ?_, ?_⟩⟩
    · simp [State.outstanding, AggPc.units] at hcount ⊢; omega
    · simp [State.outstanding, AggPc.units] at hbal ⊢; omega
    · intro h
      have := hquiet h
      simp [AggPc.units] at this
  | wake =>
    cases phase <;> simp only [reduceCtorEq] at hs
    split_ifs at hs with hc
    simp only [Option.some.injEq] at hs
    subst hs
    have hw : Phase.waiting.units = 0 := rfl
    have hk : Phase.woken.units = 0 := rfl
    refine ⟨Step.wake _ rfl hc, ⟨rfl, ?_, ?_, ?_⟩⟩
    · simp only [State.outstanding, hw, hk] at hcount ⊢; exact hcount
    · simp only [State.outstanding, hw, hk] at hbal ⊢; exact hbal
    · intro _
      simp only [State.outstanding, hw, hk] at hcount ⊢
      omega
  | close =>
    cases phase <;> simp only [reduceCtorEq] at hs
    simp only [Option.some.injEq] at hs
    subst hs
    have hk : Phase.woken.units = 0 := rfl
    have hcl : Phase.closed.units = 0 := rfl
    refine ⟨Step.close _ rfl, ⟨rfl, ?_, ?_, ?_⟩⟩
    · simp only [State.outstanding, hk, hcl] at hcount ⊢; exact hcount
    · simp only [State.outstanding, hk, hcl] at hbal ⊢; exact hbal
    · intro _
      have := hquiet rfl
      simp only [State.outstanding, hk, hcl] at this ⊢
      exact this

end Crawl

/-! ## The crawl: where the urls and pages of a state come from -/

section Crawl
variable {U : Type} (lib : URLLib U) (get : String → Except String Response) (domain : U)

theorem perm_cons_eraseIdx {α : Type} : ∀ {l : List α} {i : Nat} {x : α},
    l[i]? = some x → l.Perm (x :: l.eraseIdx i)
  | [], i, x, h => by simp at h
  | a :: l, 0, x, h => by
    simp only [List.getElem?_cons_zero, Option.some.injEq] at h
    subst h
    simp
  | a :: l, i + 1, x, h => by
    simp only [List.getElem?_cons_succ] at h
    have := perm_cons_eraseIdx h
    simp only [List.eraseIdx_cons_succ]
    exact (List.Perm.cons a this).trans (List.Perm.swap x a _)

theorem mem_of_mem_eraseIdx {α : Type} {l : List α} {i : Nat} {x : α}
    (h : x ∈ l.eraseIdx i) : x ∈ l :=
  (List.eraseIdx_sublist l i).subset h

theorem mem_eraseIdx_or {α : Type} {l : List α} {i : Nat} {x y : α}
    (h : l[i]? = some x) (hy : y ∈ l) : y = x ∨ y ∈ l.eraseIdx i := by
  have := (perm_cons_eraseIdx h).subset hy
  simpa using this

theorem visitPage_location {u : U} {page : Page U} (h : visitPage lib get u = some page) :
    page.location = u := by
  unfold visitPage at h
  split at h
  · cases h; rfl
  · split_ifs at h
    · cases h; rfl
    · cases h
      unfold processHTMLContent
      split
      · rfl
      · rw [visitHTMLNode_links]

theorem linksOf_of_visitPage {u : U} {page : Page U} (h : visitPage lib get u = some page) :
    linksOf lib get u = page.links := by
  simp [linksOf, h]

theorem linksOf_of_skip {u : U} (h : visitPage lib get u = none) :
    linksOf lib get u = [] := by
  simp [linksOf, h]

theorem sound_init : Sound lib get domain (State.init U) :=
  ⟨by simp [State.init], by simp [State.init],
   by simp [State.init, State.held, Phase.held, DispPc.held, AggPc.held],
   by simp [State.init, AggPc.current], by simp [State.init]⟩

theorem step_sound {s t : State U} (h : Sound lib get domain s)
    (hs : Step lib get domain s t) : Sound lib get domain t := by
  obtain ⟨hfd, hfg, hheld, hcur, hres⟩ := h
  cases hs with
  | crawlAdd hp =>
    refine ⟨hfd, hfg, ?_, hcur, hres⟩
    intro c hc
    simp only [State.held, Phase.held, List.mem_append, List.mem_singleton] at hc
    rcases hc with (hc | hc) | hc
    · exact Or.inl hc
    · exact hheld c (by simp [State.held, hc])
    · exact hheld c (by simp [State.held, hc])
  | crawlSend hp hd =>
    refine ⟨hfd, hfg, ?_, hcur, hres⟩
    intro c hc
    simp only [State.held, Phase.held, DispPc.held, List.mem_append, List.mem_singleton,
      List.not_mem_nil, false_or] at hc
    rcases hc with hc | hc
    · exact Or.inl hc
    · exact hheld c (by simp [State.held, hc])
  | visit url hd hsc hn =>
    have hcand : Candidate lib get domain url := hheld url (by simp [State.held, hd, DispPc.held])
    have hcr : Crawlable lib get domain (lib.resolve domain url) := by
      rcases hcand with rfl | ⟨u, hu, hl⟩
      · exact Crawlable.seed hsc
      · exact Crawlable.link u url hu hl hsc
    refine ⟨?_, ?_, ?_, ?_, ?_⟩
    · intro u hu
      simp only [List.mem_append, List.mem_singleton] at hu
      rcases hu with hu | rfl
      · exact hfd u hu
      · exact hcr
    · intro u hu
      simp only [List.mem_append, List.mem_singleton] at hu ⊢
      rcases hu with hu | rfl
      · exact Or.inl (hfg u hu)
      · exact Or.inr rfl
    · intro c hc
      simp only [State.held, DispPc.held, List.append_nil] at hc
      exact hheld c (by
        simp only [State.held, List.mem_append] at hc ⊢
        rcases hc with hc | hc
        · exact Or.inl (Or.inl hc)
        · exact Or.inr hc)
    · intro p hp
      obtain ⟨u, hu, hv⟩ := hcur p hp
      exact ⟨u, List.mem_append_left _ hu, hv⟩
    · intro p hp
      obtain ⟨u, hu, hv⟩ := hres p hp
      exact ⟨u, List.mem_append_left _ hu, hv⟩
  | discard url hd hc hpos =>
    refine ⟨hfd, hfg, ?_, hcur, hres⟩
    intro c hc
    simp only [State.held, DispPc.held, List.append_nil] at hc
    exact hheld c (by
      simp only [State.held, List.mem_append] at hc ⊢
      rcases hc with hc | hc
      · exact Or.inl (Or.inl hc)
      · exact Or.inr hc)
  | deliverNil i u hf hp ha hv =>
    refine ⟨hfd, fun x hx => hfg x (mem_of_mem_eraseIdx hx), ?_, ?_, hres⟩
    · intro c hc
      simp only [State.held, AggPc.held, List.append_nil] at hc
      exact hheld c (List.mem_append_left _ hc)
    · intro p hp
      simp [AggPc.current] at hp
  | deliverPage i u page hf hp ha hv =>
    have hu : u ∈ s.fetched := hfg u (List.getElem?_mem hf)
    refine ⟨hfd, fun x hx => hfg x (mem_of_mem_eraseIdx hx), ?_, ?_, hres⟩
    · intro c hc
      simp only [State.held, AggPc.held, List.mem_append] at hc
      rcases hc with hc | hc
      · exact hheld c (List.mem_append_left _ (List.mem_append.2 hc))
      · exact Or.inr ⟨u, hfd u hu, by rw [linksOf_of_visitPage lib get hv]; exact hc⟩
    · intro p hp
      simp only [AggPc.current, List.mem_singleton] at hp
      subst hp
      exact ⟨u, hu, hv⟩
  | queueAdd page link rest ha =>
    refine ⟨hfd, hfg, ?_, ?_, hres⟩
    · intro c hc
      exact hheld c (by simpa [State.held, AggPc.held, ha] using hc)
    · intro p hp
      exact hcur p (by simpa [AggPc.current, ha] using hp)
  | queueSend page link rest ha hp hd =>
    refine ⟨hfd, hfg, ?_, ?_, hres⟩
    · intro c hc
      simp only [State.held, AggPc.held, DispPc.held, List.mem_append, List.mem_singleton] at hc
      apply hheld c
      simp only [State.held, ha, hd, AggPc.held, DispPc.held, List.mem_append, List.mem_cons,
        List.not_mem_nil, or_false]
      rcases hc with (hc | hc) | hc
      · exact Or.inl hc
      · exact Or.inr (Or.inl hc)
      · exact Or.inr (Or.inr hc)
    · intro p hp
      exact hcur p (by simpa [AggPc.current, ha] using hp)
  | forward page ha hp =>
    refine ⟨hfd, hfg, ?_, ?_, ?_⟩
    · intro c hc
      simp only [State.held, AggPc.held, List.append_nil] at hc
      exact hheld c (List.mem_append_left _ hc)
    · intro p hp
      simp [AggPc.current] at hp
    · intro p hp
      simp only [List.mem_append, List.mem_singleton] at hp
      rcases hp with hp | rfl
      · exact hres p hp
      · exact hcur p (by simp [AggPc.current, ha])
  | aggDone ha hpos =>
    refine ⟨hfd, hfg, ?_, ?_, hres⟩
    · intro c hc
      simp only [State.held, AggPc.held, List.append_nil] at hc
      exact hheld c (List.mem_append_left _ hc)
    · intro p hp
      simp [AggPc.current] at hp
  | wake hp hc =>
    refine ⟨hfd, hfg, ?_, hcur, hres⟩
    intro c hc
    exact hheld c (by simpa [State.held, Phase.held, hp] using hc)
  | close hp =>
    refine ⟨hfd, hfg, ?_, hcur, hres⟩
    intro c hc
    exact hheld c (by simpa [State.held, Phase.held, hp] using hc)
end Crawl

theorem visitPagesFrom_visited_eq {U : Type} (lib : URLLib U) (domain : U) (urls : List U) :
    ∀ st : Dispatch U, st.visitedUrls = (st.started.map lib.str).reverse →
      (visitPagesFrom lib domain st urls).visitedUrls =
        ((visitPagesFrom lib domain st urls).started.map lib.str).reverse := by
  induction urls with
  | nil => intro st h; exact h
  | cons x rest ih =>
    intro st h
    rw [visitPagesFrom_cons]
    apply ih
    split_ifs
    · simp [h]
    · exact h

/-! ## The crawl: the dispatcher and the whereabouts of every fetched url -/

section Crawl
variable {U : Type} (lib : URLLib U) (get : String → Except String Response) (domain : U)

theorem folded_init : Folded lib domain (State.init U) :=
  ⟨[], rfl, rfl⟩

theorem step_folded {s t : State U} (h : Folded lib domain s)
    (hs : Step lib get domain s t) : Folded lib domain t := by
  obtain ⟨urls, hv, hf⟩ := h
  cases hs with
  | visit url hd hsc hn =>
    refine ⟨urls ++ [url], ?_, ?_⟩ <;>
    · unfold visitPages at hv hf ⊢
      rw [visitPagesFrom_append, visitPagesFrom_cons, if_pos ⟨hsc, by rw [hv]; exact hn⟩]
      simp [visitPagesFrom, hv, hf]
  | discard url hd hc hpos =>
    refine ⟨urls ++ [url], ?_, ?_⟩ <;>
    · unfold visitPages at hv hf ⊢
      rw [visitPagesFrom_append, visitPagesFrom_cons, if_neg (by rw [hv]; exact hc)]
      simp [visitPagesFrom, hv, hf]
  | _ => exact ⟨urls, hv, hf⟩

theorem folded_distinct {s : State U} (h : Folded lib domain s) :
    (s.fetched.map lib.str).Nodup ∧ s.visitedUrls = (s.fetched.map lib.str).reverse := by
  obtain ⟨urls, hv, hf⟩ := h
  have h1 := visitPagesFrom_distinct lib domain urls
    { visitedUrls := [], started := [], dones := 0 } ⟨List.nodup_nil, by simp⟩
  have h2 := visitPagesFrom_visited_eq lib domain urls
    { visitedUrls := [], started := [], dones := 0 } rfl
  unfold visitPages at hv hf
  rw [hv, hf] at h2
  rw [Dispatch.Distinct, hf] at h1
  exact ⟨h1.1, h2⟩

theorem tracked_init : Tracked lib get (State.init U) := by
  simp [Tracked, State.init, AggPc.current]

theorem step_tracked {s t : State U} (h : Tracked lib get s)
    (hs : Step lib get domain s t) : Tracked lib get t := by
  unfold Tracked at h ⊢
  cases hs with
  | visit url hd hsc hn =>
    simp only [List.filter_append]
    rw [← List.append_assoc]
    exact List.Perm.append_right _ h
  | deliverNil i u hf hp ha hv =>
    have hp := (perm_cons_eraseIdx hf).filter (yieldsPage lib get)
    have hy : yieldsPage lib get u = false := by simp [yieldsPage, hv]
    rw [List.filter_cons_of_neg (by simp [hy])] at hp
    simp only [AggPc.current, List.map_nil, List.append_nil]
    rw [ha] at h
    simp only [AggPc.current, List.map_nil, List.append_nil] at h
    exact (List.Perm.append_left _ hp.symm).trans h
  | deliverPage i u page hf hp ha hv =>
    have hp := (perm_cons_eraseIdx hf).filter (yieldsPage lib get)
    have hy : yieldsPage lib get u = true := by simp [yieldsPage, hv]
    rw [List.filter_cons_of_pos hy] at hp
    rw [ha] at h
    simp only [AggPc.current, List.map_nil, List.append_nil, List.map_cons,
      visitPage_location lib get hv] at h ⊢
    rw [List.append_assoc]
    exact (List.Perm.append_left _ hp.symm).trans h
  | forward page ha hp =>
    rw [ha] at h
    simpa [AggPc.current] using h
  | queueAdd page link rest ha =>
    rw [ha] at h
    simpa [AggPc.current] using h
  | queueSend page link rest ha hp hd =>
    rw [ha] at h
    simpa [AggPc.current] using h
  | aggDone ha hpos =>
    rw [ha] at h
    simpa [AggPc.current] using h
  | _ => exact h

end Crawl

/-! ## The crawl: no candidate is lost -/

section Crawl
variable {U : Type} (lib : URLLib U) (get : String → Except String Response) (domain : U)

theorem handled_mono {s t : State U} {c : U}
    (hheld : ∀ x ∈ s.held domain, Handled lib domain t x)
    (hvis : ∀ w ∈ s.visitedUrls, w ∈ t.visitedUrls)
    (h : Handled lib domain s c) : Handled lib domain t c := by
  rcases h with h | h
  · exact hheld c h
  · exact Or.inr fun hs => hvis _ (h hs)

theorem closing_init : Closing lib get domain (State.init U) :=
  ⟨Or.inl rfl, by simp [State.init]⟩

/-- Every candidate held before a step is handled after it. -/
theorem step_held {s t : State U} (hs : Step lib get domain s t) :
    (∀ x ∈ s.held domain, Handled lib domain t x) ∧
      ∀ w ∈ s.visitedUrls, w ∈ t.visitedUrls := by
  cases hs with
  | crawlAdd hp =>
    refine ⟨fun x hx => Or.inl ?_, fun w hw => hw⟩
    simp only [State.held, List.mem_append] at hx ⊢
    rcases hx with (hx | hx) | hx
    · rw [hp] at hx; simp [Phase.held] at hx
    · exact Or.inl (Or.inr hx)
    · exact Or.inr hx
  | crawlSend hp hd =>
    refine ⟨fun x hx => Or.inl ?_, fun w hw => hw⟩
    simp only [State.held, List.mem_append, hp, hd, Phase.held, DispPc.held] at hx ⊢
    rcases hx with (hx | hx) | hx
    · exact Or.inl (Or.inr hx)
    · simp at hx
    · exact Or.inr hx
  | visit url hd hsc hn =>
    refine ⟨fun x hx => ?_, fun w hw => List.mem_cons_of_mem _ hw⟩
    simp only [State.held, List.mem_append, hd, DispPc.held, List.mem_singleton] at hx
    rcases hx with (hx | hx) | hx
    · exact Or.inl (by simp only [State.held, List.mem_append]; exact Or.inl (Or.inl hx))
    · subst hx
      exact Or.inr fun _ => List.mem_cons_self _ _
    · exact Or.inl (by simp only [State.held, List.mem_append]; exact Or.inr hx)
  | discard url hd hc hpos =>
    refine ⟨fun x hx => ?_, fun w hw => hw⟩
    simp only [State.held, List.mem_append, hd, DispPc.held, List.mem_singleton] at hx
    rcases hx with (hx | hx) | hx
    · exact Or.inl (by simp only [State.held, List.mem_append]; exact Or.inl (Or.inl hx))
    · subst hx
      refine Or.inr fun hsc => ?_
      by_contra hn
      exact hc ⟨hsc, hn⟩
    · exact Or.inl (by simp only [State.held, List.mem_append]; exact Or.inr hx)
  | deliverNil i u hf hp ha hv =>
    refine ⟨fun x hx => Or.inl ?_, fun w hw => hw⟩
    simp only [State.held, List.mem_append, ha, AggPc.held] at hx ⊢
    rcases hx with (hx | hx) | hx
    · exact Or.inl (Or.inl hx)
    · exact Or.inl (Or.inr hx)
    · simp at hx
  | deliverPage i u page hf hp ha hv =>
    refine ⟨fun x hx => Or.inl ?_, fun w hw => hw⟩
    simp only [State.held, List.mem_append, ha, AggPc.held] at hx ⊢
    rcases hx with (hx | hx) | hx
    · exact Or.inl (Or.inl hx)
    · exact Or.inl (Or.inr hx)
    · simp at hx
  | queueAdd page link rest ha =>
    refine ⟨fun x hx => Or.inl ?_, fun w hw => hw⟩
    simpa [State.held, ha, AggPc.held] using hx
  | queueSend page link rest ha hp hd =>
    refine ⟨fun x hx => Or.inl ?_, fun w hw => hw⟩
    simp only [State.held, List.mem_append, ha, hd, AggPc.held, DispPc.held, List.mem_cons,
      List.mem_singleton] at hx ⊢
    rcases hx with (hx | hx) | hx | hx
    · exact Or.inl (Or.inl hx)
    · simp at hx
    · exact Or.inl (Or.inr (Or.inl hx))
    · exact Or.inr hx
  | forward page ha hp =>
    refine ⟨fun x hx => Or.inl ?_, fun w hw => hw⟩
    simpa [State.held, ha, AggPc.held] using hx
  | aggDone ha hpos =>
    refine ⟨fun x hx => Or.inl ?_, fun w hw => hw⟩
    simpa [State.held, ha, AggPc.held] using hx
  | wake hp hc =>
    refine ⟨fun x hx => Or.inl ?_, fun w hw => hw⟩
    simpa [State.held, hp, Phase.held] using hx
  | close hp =>
    refine ⟨fun x hx => Or.inl ?_, fun w hw => hw⟩
    simpa [State.held, hp, Phase.held] using hx

theorem step_closing {s t : State U} (h : Closing lib get domain s)
    (hs : Step lib get domain s t) : Closing lib get domain t := by
  obtain ⟨hseed, hlinks⟩ := h
  obtain ⟨hheld, hvis⟩ := step_held lib get domain hs
  have mono : ∀ c, Handled lib domain s c → Handled lib domain t c :=
    fun c hc => handled_mono lib domain hheld hvis hc
  have keep : ∀ u, (∀ l ∈ linksOf lib get u, Handled lib domain s l) →
      ∀ l ∈ linksOf lib get u, Handled lib domain t l :=
    fun u hu l hl => mono l (hu l hl)
  cases hs with
  | crawlAdd hp =>
    exact ⟨Or.inr (Or.inl (by simp [State.held, Phase.held])),
      fun u hu => (hlinks u hu).imp id (keep u)⟩
  | crawlSend hp hd =>
    refine ⟨Or.inr ?_, fun u hu => (hlinks u hu).imp id (keep u)⟩
    rcases hseed with h | h
    · rw [hp] at h; cases h
    · exact mono _ h
  | visit url hd hsc hn =>
    refine ⟨hseed.imp id (mono _), fun u hu => ?_⟩
    simp only [List.mem_append, List.mem_singleton] at hu ⊢
    rcases hu with hu | rfl
    · exact (hlinks u hu).imp Or.inl (keep u)
    · exact Or.inl (Or.inr rfl)
  | discard url hd hc hpos =>
    exact ⟨hseed.imp id (mono _), fun u hu => (hlinks u hu).imp id (keep u)⟩
  | deliverNil i u hf hp ha hv =>
    refine ⟨hseed.imp id (mono _), fun x hx => ?_⟩
    rcases hlinks x hx with h | h
    · rcases mem_eraseIdx_or hf h with rfl | h
      · right
        rw [linksOf_of_skip lib get hv]
        simp
      · exact Or.inl h
    · exact Or.inr (keep x h)
  | deliverPage i u page hf hp ha hv =>
    refine ⟨hseed.imp id (mono _), fun x hx => ?_⟩
    rcases hlinks x hx with h | h
    · rcases mem_eraseIdx_or hf h with rfl | h
      · right
        rw [linksOf_of_visitPage lib get hv]
        intro l hl
        exact Or.inl (by simp [State.held, AggPc.held, hl])
      · exact Or.inl h
    · exact Or.inr (keep x h)
  | queueAdd page link rest ha =>
    exact ⟨hseed.imp id (mono _), fun u hu => (hlinks u hu).imp id (keep u)⟩
  | queueSend page link rest ha hp hd =>
    exact ⟨hseed.imp id (mono _), fun u hu => (hlinks u hu).imp id (keep u)⟩
  | forward page ha hp =>
    exact ⟨hseed.imp id (mono _), fun u hu => (hlinks u hu).imp id (keep u)⟩
  | aggDone ha hpos =>
    exact ⟨hseed.imp id (mono _), fun u hu => (hlinks u hu).imp id (keep u)⟩
  | wake hp hc =>
    refine ⟨Or.inr ?_, fun u hu => (hlinks u hu).imp id (keep u)⟩
    rcases hseed with h | h
    · rw [hp] at h; cases h
    · exact mono _ h
  | close hp =>
    refine ⟨Or.inr ?_, fun u hu => (hlinks u hu).imp id (keep u)⟩
    rcases hseed with h | h
    · rw [hp] at h; cases h
    · exact mono _ h

end Crawl

/-! ## The crawl: the invariant along every schedule, progress and quiescence -/

section Crawl
variable {U : Type} (lib : URLLib U) (get : String → Except String Response) (domain : U)

theorem visitPage_congr {u v : U} (h : lib.str u = lib.str v) :
    visitPage lib get v = (visitPage lib get u).map (fun p => { p with location := v }) := by
  unfold visitPage
  rw [h]
  split
  · rfl
  · next resp _ =>
    split_ifs
    · simp [statusError, h]
    · rfl
    · cases hb : resp.body with
      | error e => simp [processHTMLContent]
      | ok doc => simp [processHTMLContent_ok]

theorem yieldsPage_congr {u v : U} (h : lib.str u = lib.str v) :
    yieldsPage lib get v = yieldsPage lib get u := by
  simp [yieldsPage, visitPage_congr lib get h]

theorem linksOf_congr {u v : U} (h : lib.str u = lib.str v) :
    linksOf lib get v = linksOf lib get u := by
  unfold linksOf
  rw [visitPage_congr lib get h]
  cases visitPage lib get u <;> rfl

theorem fetchCost_congr {u v : U} (h : lib.str u = lib.str v) :
    fetchCost lib get v = fetchCost lib get u := by
  unfold fetchCost
  rw [visitPage_congr lib get h]
  cases visitPage lib get u <;> rfl

theorem step_seeded {s t : State U} (h : s.phase ≠ .start → 1 ≤ s.adds)
    (hs : Step lib get domain s t) : t.phase ≠ .start → 1 ≤ t.adds := by
  cases hs with
  | crawlAdd hp => intro _; simp
  | crawlSend hp hd => intro _; exact h (by rw [hp]; simp)
  | queueAdd page link rest ha => intro hp; exact Nat.le_succ_of_le (h hp)
  | wake hp hc => intro _; exact h (by rw [hp]; simp)
  | close hp => intro _; exact h (by rw [hp]; simp)
  | _ => exact h

theorem invariant_init : Invariant lib get domain (State.init U) :=
  ⟨accounted_init, sound_init lib get domain, folded_init lib domain, tracked_init lib get,
    closing_init lib get domain, fun h => absurd rfl h⟩

theorem step_invariant {s t : State U} {a : Action} (h : Invariant lib get domain s)
    (hs : step lib get domain a s = some t) :
    Step lib get domain s t ∧ Invariant lib get domain t := by
  obtain ⟨hstep, hacc⟩ := step_accounted lib get domain h.accounted hs
  exact ⟨hstep, hacc, step_sound lib get domain h.sound hstep,
    step_folded lib get domain h.folded hstep, step_tracked lib get domain h.tracked hstep,
    step_closing lib get domain h.closing hstep, step_seeded lib get domain h.seeded hstep⟩

theorem run_invariant : ∀ (acts : List Action) {s t : State U},
    Invariant lib get domain s → run lib get domain acts s = some t →
    Invariant lib get domain t
  | [], s, t, h, hr => by
    simp only [run, Option.some.injEq] at hr
    exact hr ▸ h
  | a :: rest, s, t, h, hr => by
    simp only [run] at hr
    split at hr
    · cases hr
    · next s1 hs1 =>
      exact run_invariant rest (step_invariant lib get domain h hs1).2 hr

theorem reachable_invariant {s : State U} (h : Reachable lib get domain s) :
    Invariant lib get domain s := by
  obtain ⟨acts, hr⟩ := h
  exact run_invariant lib get domain acts (invariant_init lib get domain) hr

theorem run_append (a b : List Action) (s : State U) :
    run lib get domain (a ++ b) s = (run lib get domain a s).bind (run lib get domain b) := by
  induction a generalizing s with
  | nil => rfl
  | cons x a ih =>
    simp only [List.cons_append, run]
    cases step lib get domain x s with
    | none => rfl
    | some t => exact ih t

theorem reachable_step {s t : State U} {a : Action} (h : Reachable lib get domain s)
    (hs : step lib get domain a s = some t) : Reachable lib get domain t := by
  obtain ⟨acts, hr⟩ := h
  refine ⟨acts ++ [a], ?_⟩
  rw [run_append, hr]
  simp [run, hs]

/-- In an accounted state the waiter is past `complete.Wait()` only at
quiescence. -/
theorem quiescent_of_drained {s : State U} (h : Accounted s) (hd : s.phase.drained = true) :
    s.Quiescent := by
  have h0 := h.quiet hd
  have hcnt := h.counter
  rw [h0] at hcnt
  simp only [State.outstanding, Nat.add_eq_zero] at h0
  obtain ⟨⟨⟨_, hd⟩, hf⟩, ha⟩ := h0
  refine ⟨by simpa using hcnt, ?_, List.length_eq_zero.1 hf, ?_⟩
  · cases hdd : s.disp with
    | idle => rfl
    | got c => rw [hdd] at hd; simp [DispPc.units] at hd
  · cases haa : s.agg <;> first | rfl | (rw [haa] at ha; simp [AggPc.units] at ha)

theorem quiescent_of_closed {s : State U} (h : Accounted s) (hc : s.phase = .closed) :
    s.Quiescent :=
  quiescent_of_drained h (by rw [hc]; rfl)

/-- After the close no action is enabled. -/
theorem step_none_of_closed {s : State U} (h : Accounted s) (hc : s.phase = .closed)
    (a : Action) : step lib get domain a s = none := by
  obtain ⟨_, hd, hf, ha⟩ := quiescent_of_closed h hc
  unfold step
  rw [h.calm]
  simp only [Bool.false_eq_true, if_false]
  cases a <;> simp [hc, hd, hf, ha]

/-- Once `complete.Wait()` has returned only the close is enabled. -/
theorem step_woken {s t : State U} {a : Action} (h : Accounted s) (hp : s.phase = .woken)
    (hs : step lib get domain a s = some t) : a = .close := by
  obtain ⟨_, hd, hf, ha⟩ := quiescent_of_drained h (by rw [hp]; rfl)
  unfold step at hs
  rw [h.calm] at hs
  simp only [Bool.false_eq_true, if_false] at hs
  cases a <;> simp [hp, hd, hf, ha] at hs ⊢

/-- Before the close some action is enabled. -/
theorem progress {s : State U} (h : Accounted s) (hc : s.phase ≠ .closed) :
    ∃ a t, step lib get domain a s = some t := by
  have hcalm := h.calm
  have hcount := h.counter
  rcases s with ⟨phase, complete, visited, disp, fetching, agg, results, panicked, fetched,
    adds, dones⟩
  simp only at hcalm hc
  subst hcalm
  cases disp with
  | got url =>
    refine ⟨.dispatch, ?_⟩
    simp only [step, Bool.false_eq_true, if_false]
    split <;> exact ⟨_, rfl⟩
  | idle =>
    cases phase with
    | start => exact ⟨.crawlAdd, _, rfl⟩
    | added => exact ⟨.crawlSend, _, rfl⟩
    | closed => exact absurd rfl hc
    | woken => exact ⟨.close, _, rfl⟩
    | waiting =>
      cases agg with
      | links page rest =>
        cases rest with
        | nil => exact ⟨.forward, _, rfl⟩
        | cons l rest => exact ⟨.queueAdd, _, rfl⟩
      | sending page link rest => exact ⟨.queueSend, _, rfl⟩
      | finishing => exact ⟨.aggDone, _, rfl⟩
      | idle =>
        cases fetching with
        | nil =>
          simp [State.outstanding, Phase.units, DispPc.units, AggPc.units] at hcount
          subst hcount
          exact ⟨.wake, _, rfl⟩
        | cons u rest =>
          refine ⟨.deliver 0, ?_⟩
          simp only [step, Bool.false_eq_true, if_false, List.getElem?_cons_zero]
          simp only [reduceCtorEq, if_false]
          split <;> exact ⟨_, rfl⟩

end Crawl

/-! ## The crawl: every schedule is finite -/

section Crawl
variable {U : Type} (lib : URLLib U) (get : String → Except String Response) (domain : U)

theorem sum_eraseIdx {α : Type} (f : α → Nat) {l : List α} {i : Nat} {x : α}
    (h : l[i]? = some x) : ((l.eraseIdx i).map f).sum + f x = (l.map f).sum := by
  have := ((perm_cons_eraseIdx h).map f).sum_eq
  simp only [List.map_cons, List.sum_cons] at this
  omega

theorem sum_filter_mono {α : Type} (f : α → Nat) (p q : α → Bool)
    (hpq : ∀ x, p x = true → q x = true) (l : List α) :
    ((l.filter p).map f).sum ≤ ((l.filter q).map f).sum := by
  induction l with
  | nil => simp
  | cons x rest ih =>
    rw [List.filter_cons, List.filter_cons]
    cases hp : p x
    · cases hq : q x
      · simpa using ih
      · simp only [Bool.false_eq_true, if_false, if_true, List.map_cons, List.sum_cons]
        omega
    · rw [hpq x hp]
      simp only [if_true, List.map_cons, List.sum_cons]
      omega

theorem sum_filter_drop {α : Type} (f : α → Nat) (p q : α → Bool)
    (hpq : ∀ x, p x = true → q x = true) (l : List α) (x0 : α) (hx : x0 ∈ l)
    (hq0 : q x0 = true) (hp0 : p x0 = false) :
    ((l.filter p).map f).sum + f x0 ≤ ((l.filter q).map f).sum := by
  induction l with
  | nil => cases hx
  | cons x rest ih =>
    rw [List.filter_cons, List.filter_cons]
    rcases List.mem_cons.1 hx with rfl | hx
    · have := sum_filter_mono f p q hpq rest
      rw [hq0, hp0]
      simp only [Bool.false_eq_true, if_false, if_true, List.map_cons, List.sum_cons]
      omega
    · have := ih hx
      cases hp : p x
      · cases hq : q x
        · simpa using this
        · simp only [Bool.false_eq_true, if_false, if_true, List.map_cons, List.sum_cons]
          omega
      · rw [hpq x hp]
        simp only [if_true, List.map_cons, List.sum_cons]
        omega

/-- Marking the string of a url of `univ` visited lowers the cost of the urls
not yet visited by at least the cost of that url. -/
theorem unvisited_drop (f : U → Nat) (w : String) (visited : List String) (univ : List U)
    (u0 : U) (hu : u0 ∈ univ) (hs : lib.str u0 = w) (hw : w ∉ visited) :
    ((univ.filter (fun u => decide (lib.str u ∉ w :: visited))).map f).sum + f u0 ≤
      ((univ.filter (fun u => decide (lib.str u ∉ visited))).map f).sum := by
  apply sum_filter_drop f _ _ _ univ u0 hu
  · simp [hs, hw]
  · simp [hs]
  · intro x hx
    simp only [List.mem_cons, not_or, decide_eq_true_eq] at hx ⊢
    exact hx.2

/-- Every step without panic lowers the potential. -/
theorem step_potential {univ : List U} (hfin : FiniteSite lib get domain univ) {s t : State U}
    (hsound : Sound lib get domain s) (hs : Step lib get domain s t) :
    t.potential lib get univ + 1 ≤ s.potential lib get univ := by
  cases hs with
  | crawlAdd hp => simp only [State.potential, hp, Phase.cost]; omega
  | crawlSend hp hd => simp only [State.potential, hp, hd, Phase.cost, DispPc.cost]; omega
  | visit url hd hsc hn =>
    have hcr : Crawlable lib get domain (lib.resolve domain url) := by
      rcases hsound.held url (by simp [State.held, hd, DispPc.held]) with rfl | ⟨u, hu, hl⟩
      · exact Crawlable.seed hsc
      · exact Crawlable.link u url hu hl hsc
    obtain ⟨u0, hu0, hstr⟩ := List.mem_map.1 (hfin _ hcr)
    have hdrop := unvisited_drop lib (fetchCost lib get) _ s.visitedUrls univ u0 hu0 hstr hn
    have hcost := fetchCost_congr lib get hstr
    simp only [State.potential, hd, DispPc.cost, List.map_append, List.sum_append, List.map_cons,
      List.map_nil, List.sum_cons, List.sum_nil]
    omega
  | discard url hd hc hpos => simp only [State.potential, hd, DispPc.cost]; omega
  | deliverNil i u hf hp ha hv =>
    have hsum := sum_eraseIdx (fetchCost lib get) hf
    have hcost : fetchCost lib get u = 2 := by simp [fetchCost, hv]
    simp only [State.potential, ha, AggPc.cost]
    omega
  | deliverPage i u page hf hp ha hv =>
    have hsum := sum_eraseIdx (fetchCost lib get) hf
    have hcost : fetchCost lib get u = 3 * page.links.length + 3 := by simp [fetchCost, hv]
    simp only [State.potential, ha, AggPc.cost]
    omega
  | queueAdd page link rest ha =>
    simp only [State.potential, ha, AggPc.cost, List.length_cons]; omega
  | queueSend page link rest ha hp hd =>
    simp only [State.potential, ha, hd, AggPc.cost, DispPc.cost]; omega
  | forward page ha hp => simp only [State.potential, ha, AggPc.cost, List.length_nil]; omega
  | aggDone ha hpos => simp only [State.potential, ha, AggPc.cost]; omega
  | wake hp hc => simp only [State.potential, hp, Phase.cost]; omega
  | close hp => simp only [State.potential, hp, Phase.cost]; omega

/-- A schedule is no longer than the potential it uses up. -/
theorem run_length {univ : List U} (hfin : FiniteSite lib get domain univ) :
    ∀ (acts : List Action) {s t : State U}, Invariant lib get domain s →
      run lib get domain acts s = some t →
      acts.length + t.potential lib get univ ≤ s.potential lib get univ
  | [], s, t, _, hr => by
    simp only [run, Option.some.injEq] at hr
    subst hr
    simp
  | a :: rest, s, t, h, hr => by
    simp only [run] at hr
    split at hr
    · cases hr
    · next s1 hs1 =>
      obtain ⟨hstep, hinv⟩ := step_invariant lib get domain h hs1
      have h1 := step_potential lib get domain hfin h.sound hstep
      have h2 := run_length hfin rest hinv hr
      simp only [List.length_cons]
      omega

/-- From every state of a crawl of a finite site some schedule leads to the
close. -/
theorem exists_close {univ : List U} (hfin : FiniteSite lib get domain univ) :
    ∀ (n : Nat) (s : State U), Invariant lib get domain s → s.potential lib get univ ≤ n →
      ∃ acts t, run lib get domain acts s = some t ∧ t.phase = .closed := by
  intro n
  induction n with
  | zero =>
    intro s h hn
    by_cases hc : s.phase = .closed
    · exact ⟨[], s, rfl, hc⟩
    · obtain ⟨a, t, hs⟩ := progress lib get domain h.accounted hc
      obtain ⟨hstep, _⟩ := step_invariant lib get domain h hs
      have := step_potential lib get domain hfin h.sound hstep
      omega
  | succ n ih =>
    intro s h hn
    by_cases hc : s.phase = .closed
    · exact ⟨[], s, rfl, hc⟩
    · obtain ⟨a, t, hs⟩ := progress lib get domain h.accounted hc
      obtain ⟨hstep, hinv⟩ := step_invariant lib get domain h hs
      have := step_potential lib get domain hfin h.sound hstep
      obtain ⟨acts, t', hr, hc'⟩ := ih t hinv (by omega)
      exact ⟨a :: acts, t', by simp [run, hs, hr], hc'⟩

end Crawl

theorem visitPagesFrom_count {U : Type} (lib : URLLib U) (domain : U) (urls : List U) :
    ∀ st : Dispatch U,
      (visitPagesFrom lib domain st urls).dones + (visitPagesFrom lib domain st urls).started.length =
        st.dones + st.started.length + urls.length := by
  induction urls with
  | nil => intro st; rfl
  | cons x rest ih =>
    intro st
    rw [visitPagesFrom_cons, ih]
    split_ifs <;> simp <;> omega

/-! ## The crawl: the pages sent, termination, the counter and the close -/

section Crawl
variable {U : Type} (lib : URLLib U) (get : String → Except String Response) (domain : U)

theorem crawlable_hostname {u : U} (h : Crawlable lib get domain u) :
    lib.hostname u = lib.hostname domain := by
  cases h with
  | seed hs => exact hs
  | link u l hu hl hs => exact hs

theorem held_of_quiescent {s : State U} (hc : s.phase = .closed) (hq : s.Quiescent) :
    s.held domain = [] := by
  obtain ⟨_, hd, _, ha⟩ := hq
  simp [State.held, hc, hd, ha, Phase.held, DispPc.held, AggPc.held]

/-- At the close every crawlable url has been fetched, up to its string. -/
theorem closed_complete {s : State U} (h : Invariant lib get domain s) (hc : s.phase = .closed) :
    ∀ u, Crawlable lib get domain u → ∃ v ∈ s.fetched, lib.str v = lib.str u := by
  have hq := quiescent_of_closed h.accounted hc
  have hheld := held_of_quiescent domain hc hq
  have hvis := (folded_distinct lib domain h.folded).2
  have visited : ∀ c, Handled lib domain s c →
      lib.hostname (lib.resolve domain c) = lib.hostname domain →
      ∃ v ∈ s.fetched, lib.str v = lib.str (lib.resolve domain c) := by
    intro c hh hs
    rcases hh with hh | hh
    · rw [hheld] at hh; cases hh
    · have := hh hs
      rw [hvis, List.mem_reverse, List.mem_map] at this
      exact this
  intro u hu
  induction hu with
  | seed hs =>
    rcases h.closing.seed with hp | hh
    · rw [hc] at hp; cases hp
    · exact visited _ hh hs
  | link u l hu hl hs ih =>
    obtain ⟨v, hv, hstr⟩ := ih
    rcases h.closing.links v hv with hf | hh
    · rw [hq.2.2.1] at hf; cases hf
    · exact visited l (hh l (by rw [linksOf_congr lib get hstr.symm]; exact hl)) hs

/-- At the close the locations of the Pages sent are the fetched urls that
yield a Page, each once. -/
theorem closed_perm {s : State U} (h : Invariant lib get domain s) (hc : s.phase = .closed) :
    (s.results.map Page.location).Perm (s.fetched.filter (yieldsPage lib get)) := by
  have hq := quiescent_of_closed h.accounted hc
  have := h.tracked
  unfold Tracked at this
  rw [hq.2.2.1, hq.2.2.2] at this
  simpa [AggPc.current] using this

theorem init_potential (univ : List U) :
    (State.init U).potential lib get univ = 5 + (univ.map (fetchCost lib get)).sum := by
  simp [State.potential, State.init, Phase.cost, DispPc.cost, AggPc.cost]

theorem run_split (pre post : List Action) (a : Action) {s t : State U}
    (h : run lib get domain (pre ++ a :: post) s = some t) :
    ∃ s0 s1, run lib get domain pre s = some s0 ∧ step lib get domain a s0 = some s1 ∧
      run lib get domain post s1 = some t := by
  rw [run_append] at h
  cases h0 : run lib get domain pre s with
  | none => rw [h0] at h; cases h
  | some s0 =>
    rw [h0] at h
    simp only [Option.some_bind, run] at h
    cases h1 : step lib get domain a s0 with
    | none => rw [h1] at h; cases h
    | some s1 =>
      rw [h1] at h
      exact ⟨s0, s1, rfl, h1, h⟩

theorem step_close {s t : State U} (h : step lib get domain .close s = some t) :
    s.phase = .woken ∧ t.phase = .closed ∧ t.results = s.results := by
  unfold step at h
  split at h
  · cases h
  · simp only at h
    split at h
    · next hp =>
      cases h
      exact ⟨hp, rfl, rfl⟩
    · cases h

theorem step_wake {s t : State U} (h : step lib get domain .wake s = some t) :
    s.phase = .waiting ∧ s.complete = 0 ∧ t.phase = .woken := by
  unfold step at h
  split at h
  · cases h
  · simp only at h
    split at h
    · next hp =>
      split_ifs at h with hc
      cases h
      exact ⟨hp, hc, rfl⟩
    · cases h

/-- C2. For a finite site some schedule leads to the close, and at the close
of every schedule: each Page on `results` is the outcome of visiting a
crawlable url (in scope, and the resolved domain or the resolution against the
domain of a link on the page of such a url); every crawlable url whose outcome
is not the skip has a Page with its string; no two Pages have the same string;
the fetched urls are the crawlable ones, with pairwise different strings; and
the number of Pages is the number of fetched urls whose outcome is not the
skip. -/
theorem crawl_pages {univ : List U} (hfin : FiniteSite lib get domain univ) :
    (∃ acts s, run lib get domain acts (State.init U) = some s ∧ s.phase = .closed) ∧
    ∀ s, Reachable lib get domain s → s.phase = .closed →
      (∀ p ∈ s.results,
        Crawlable lib get domain p.location ∧ visitPage lib get p.location = some p) ∧
      (∀ u, Crawlable lib get domain u → visitPage lib get u ≠ none →
        ∃ p ∈ s.results, lib.str p.location = lib.str u) ∧
      (s.results.map (fun p => lib.str p.location)).Nodup ∧
      (∀ u ∈ s.fetched, Crawlable lib get domain u) ∧
      (∀ u, Crawlable lib get domain u → ∃ v ∈ s.fetched, lib.str v = lib.str u) ∧
      (s.fetched.map lib.str).Nodup ∧
      s.results.length = (s.fetched.filter (fun u => (visitPage lib get u).isSome)).length := by
  refine ⟨exists_close lib get domain hfin _ _ (invariant_init lib get domain) le_rfl, ?_⟩
  intro s hr hc
  have inv := reachable_invariant lib get domain hr
  have hq := quiescent_of_closed inv.accounted hc
  have hnod := (folded_distinct lib domain inv.folded).1
  have hcomplete := closed_complete lib get domain inv hc
  have hperm := closed_perm lib get domain inv hc
  refine ⟨?_, ?_, ?_, inv.sound.fetched, hcomplete, hnod, ?_⟩
  · intro p hp
    obtain ⟨u, hu, hv⟩ := inv.sound.results p hp
    have hloc := visitPage_location lib get hv
    rw [hloc]
    exact ⟨inv.sound.fetched u hu, hv⟩
  · intro u hu hne
    obtain ⟨v, hv, hstr⟩ := hcomplete u hu
    have hy : yieldsPage lib get v = true := by
      rw [yieldsPage_congr lib get hstr.symm]
      simp only [yieldsPage, Option.isSome_iff_ne_none]
      exact hne
    have hmem : v ∈ s.results.map Page.location :=
      hperm.symm.subset (List.mem_filter.2 ⟨hv, hy⟩)
    obtain ⟨p, hp, hpl⟩ := List.mem_map.1 hmem
    exact ⟨p, hp, by rw [hpl, hstr]⟩
  · have h1 : ((s.results.map Page.location).map lib.str).Nodup :=
      ((hperm.map lib.str).nodup_iff).2
        (hnod.sublist (List.Sublist.map lib.str (List.filter_sublist _)))
    simpa [List.map_map, Function.comp] using h1
  · have := hperm.length_eq
    simpa [yieldsPage] using this

/-- C3. For a finite site (also one whose links form a cycle) every schedule
has at most `5 + Σ fetchCost` steps, before the close some step is always
enabled, a state without enabled step is closed and quiescent (counter zero,
nothing held by `visitPages`, no fetch pending, `processPages` idle), and some
schedule reaches it. -/
theorem crawl_terminates {univ : List U} (hfin : FiniteSite lib get domain univ) :
    (∀ acts s, run lib get domain acts (State.init U) = some s →
      acts.length ≤ 5 + (univ.map (fetchCost lib get)).sum) ∧
    (∀ s, Reachable lib get domain s → s.phase ≠ .closed →
      ∃ a t, step lib get domain a s = some t) ∧
    (∀ s, Reachable lib get domain s → (∀ a, step lib get domain a s = none) →
      s.phase = .closed ∧ s.Quiescent) ∧
    (∃ acts s, run lib get domain acts (State.init U) = some s ∧ s.phase = .closed ∧
      s.Quiescent) := by
  refine ⟨?_, ?_, ?_, ?_⟩
  · intro acts s hr
    have := run_length lib get domain hfin acts (invariant_init lib get domain) hr
    rw [init_potential] at this
    omega
  · intro s hr hc
    exact progress lib get domain (reachable_invariant lib get domain hr).accounted hc
  · intro s hr hnone
    have hacc := (reachable_invariant lib get domain hr).accounted
    have hc : s.phase = .closed := by
      by_contra hc
      obtain ⟨a, t, hs⟩ := progress lib get domain hacc hc
      rw [hnone a] at hs
      cases hs
    exact ⟨hc, quiescent_of_closed hacc hc⟩
  · obtain ⟨acts, s, hr, hc⟩ :=
      exists_close lib get domain hfin _ _ (invariant_init lib get domain) le_rfl
    exact ⟨acts, s, hr, hc,
      quiescent_of_closed (reachable_invariant lib get domain ⟨acts, hr⟩).accounted hc⟩

/-- C4. In every reachable state the counter of `complete` equals the number
of `Add(1)` calls minus the number of `Done()` calls, and equals the number of
urls that are queued, being fetched, or awaiting aggregation; it is never
negative and no `Done()` panics; at the close every `Add(1)` has had its
`Done()`; and `visitPages` answers each received url with exactly one of a
`Done()` and a started `visitPage`. -/
theorem counter_accounts (s : State U) (h : Reachable lib get domain s) :
    s.complete = (s.adds : Int) - (s.dones : Int) ∧
    s.complete = (s.outstanding : Int) ∧
    0 ≤ s.complete ∧
    s.panicked = false ∧
    (s.phase = .closed → s.adds = s.dones) ∧
    ∀ urls : List U,
      (visitPages lib domain urls).dones + (visitPages lib domain urls).started.length =
        urls.length := by
  have hacc := (reachable_invariant lib get domain h).accounted
  have h1 := hacc.counter
  have h2 := hacc.balance
  refine ⟨by omega, h1, by omega, hacc.calm, ?_, ?_⟩
  · intro hc
    have := hacc.quiet (by rw [hc]; rfl)
    omega
  · intro urls
    have := visitPagesFrom_count lib domain urls { visitedUrls := [], started := [], dones := 0 }
    simpa [visitPages] using this

/-- C5. Along every schedule: while `processPages` is working on an outcome
(queueing a link, forwarding the Page, or about to call `Done`) the counter is
at least 1 and `complete.Wait()` has not returned, so the channels are not
closed; once `Wait()` has returned the state is quiescent and only the close
is enabled, and after the close no step is enabled, so nothing is sent
afterwards; nothing panics; `Wait()` returns only after `Crawl` has queued
the domain and when the counter is zero (and then it can return), and nothing
but the close follows it; the close is the last action of the schedule and leaves `results` as it
was; and it occurs at most once. -/
theorem close_once (acts : List Action) (s : State U)
    (h : run lib get domain acts (State.init U) = some s) :
    (s.agg ≠ .idle → 1 ≤ s.complete ∧ s.phase ≠ .woken ∧ s.phase ≠ .closed) ∧
    (s.phase = .woken → s.Quiescent ∧ ∀ a t, step lib get domain a s = some t → a = .close) ∧
    (s.phase = .closed → s.Quiescent ∧ ∀ a, step lib get domain a s = none) ∧
    s.panicked = false ∧
    (s.phase = .waiting → s.complete = 0 →
      step lib get domain .wake s = some { s with phase := .woken }) ∧
    (∀ pre post, acts = pre ++ Action.wake :: post →
      (post = [] ∨ post = [Action.close]) ∧
      ∃ s0, run lib get domain pre (State.init U) = some s0 ∧
        s0.phase = .waiting ∧ 1 ≤ s0.adds ∧ s0.complete = 0 ∧ s.results = s0.results) ∧
    (∀ pre post, acts = pre ++ Action.close :: post →
      post = [] ∧ ∃ s0, run lib get domain pre (State.init U) = some s0 ∧
        s0.phase = .woken ∧ s0.Quiescent ∧ s.results = s0.results) ∧
    acts.count Action.close ≤ 1 := by
  have inv := reachable_invariant lib get domain ⟨acts, h⟩
  have hacc := inv.accounted
  have hclose : ∀ pre post (t : State U),
      run lib get domain (pre ++ Action.close :: post) (State.init U) = some t →
      post = [] ∧ ∃ s0, run lib get domain pre (State.init U) = some s0 ∧
        s0.phase = .woken ∧ s0.Quiescent ∧ t.results = s0.results := by
    intro pre post t ht
    obtain ⟨s0, s1, h0, h1, h2⟩ := run_split lib get domain pre post .close ht
    have inv0 := reachable_invariant lib get domain ⟨pre, h0⟩
    obtain ⟨hw, hcl, hres⟩ := step_close lib get domain h1
    have acc1 := (step_accounted lib get domain inv0.accounted h1).2
    have hpost : post = [] := by
      cases post with
      | nil => rfl
      | cons a rest =>
        simp only [run, step_none_of_closed lib get domain acc1 hcl a] at h2
        cases h2
    subst hpost
    simp only [run, Option.some.injEq] at h2
    subst h2
    exact ⟨rfl, s0, h0, hw, quiescent_of_drained inv0.accounted (by rw [hw]; rfl), hres⟩
  refine ⟨?_, ?_, ?_, hacc.calm, ?_, ?_, fun pre post he => hclose pre post s (he ▸ h), ?_⟩
  · intro ha
    have hpos : 1 ≤ s.agg.units := by
      cases hagg : s.agg with
      | idle => exact absurd hagg ha
      | links _ _ => simp [AggPc.units]
      | sending _ _ _ => simp [AggPc.units]
      | finishing => simp [AggPc.units]
    have hcnt := hacc.counter
    have hout : 0 < s.outstanding := by
      simp only [State.outstanding]
      omega
    exact ⟨by omega, not_drained_of_pos hacc hout⟩
  · intro hp
    exact ⟨quiescent_of_drained hacc (by rw [hp]; rfl),
      fun a t hs => step_woken lib get domain hacc hp hs⟩
  · intro hc
    exact ⟨quiescent_of_closed hacc hc, step_none_of_closed lib get domain hacc hc⟩
  · intro hp hz
    simp [step, hacc.calm, hp, hz]
  · intro pre post he
    subst he
    obtain ⟨s0, s1, h0, h1, h2⟩ := run_split lib get domain pre post .wake h
    have inv0 := reachable_invariant lib get domain ⟨pre, h0⟩
    obtain ⟨hw, hz, hk⟩ := step_wake lib get domain h1
    have hres1 : s1.results = s0.results := by
      unfold step at h1
      rw [inv0.accounted.calm] at h1
      simp only [Bool.false_eq_true, if_false, hw, hz] at h1
      cases h1
      rfl
    have acc1 := (step_accounted lib get domain inv0.accounted h1).2
    cases post with
    | nil =>
      simp only [run, Option.some.injEq] at h2
      subst h2
      exact ⟨Or.inl rfl, s0, h0, hw, inv0.seeded (by rw [hw]; simp), hz, hres1⟩
    | cons a rest =>
      simp only [run] at h2
      cases hs2 : step lib get domain a s1 with
      | none => rw [hs2] at h2; cases h2
      | some s2 =>
        rw [hs2] at h2
        have ha : a = .close := step_woken lib get domain acc1 hk hs2
        subst ha
        obtain ⟨_, hcl, hres2⟩ := step_close lib get domain hs2
        have acc2 := (step_accounted lib get domain acc1 hs2).2
        have hrest : rest = [] := by
          cases rest with
          | nil => rfl
          | cons b rest =>
            simp only [run, step_none_of_closed lib get domain acc2 hcl b] at h2
            cases h2
        subst hrest
        simp only [run, Option.some.injEq] at h2
        subst h2
        exact ⟨Or.inr rfl, s0, h0, hw, inv0.seeded (by rw [hw]; simp), hz,
          by rw [hres2, hres1]⟩
  · by_contra hcount
    have hmem : Action.close ∈ acts := List.count_pos_iff.1 (by omega)
    obtain ⟨pre, post, he⟩ := List.append_of_mem hmem
    subst he
    obtain ⟨hpost, _⟩ := hclose pre post s h
    subst hpost
    have hpre : Action.close ∈ pre := by
      rw [List.count_append] at hcount
      simp only [List.count_cons_self, List.count_nil] at hcount
      exact List.count_pos_iff.1 (by omega)
    obtain ⟨p1, p2, he2⟩ := List.append_of_mem hpre
    subst he2
    obtain ⟨hp, _⟩ := hclose p1 (p2 ++ [Action.close]) s (by simpa using h)
    simp at hp

end Crawl

/-! ## The crawl: the scope filter; the status check of the fetcher -/

section Crawl
variable {U : Type} (lib : URLLib U) (get : String → Except String Response) (domain : U)

/-- A site is finite when the strings of a list of urls contain that of the
resolved domain and those of the in-scope links of the pages of the list. -/
theorem finiteSite_of_closed (univ : List U)
    (hseed : lib.hostname (lib.resolve domain domain) = lib.hostname domain →
      lib.str (lib.resolve domain domain) ∈ univ.map lib.str)
    (hlinks : ∀ u ∈ univ, ∀ l ∈ linksOf lib get u,
      lib.hostname (lib.resolve domain l) = lib.hostname domain →
      lib.str (lib.resolve domain l) ∈ univ.map lib.str) :
    FiniteSite lib get domain univ := by
  intro u hu
  induction hu with
  | seed hs => exact hseed hs
  | link u l hu hl hs ih =>
    obtain ⟨u0, hu0, hstr⟩ := List.mem_map.1 ih
    exact hlinks u0 hu0 l (by rw [linksOf_congr lib get hstr.symm]; exact hl) hs

/-- C6. In every reachable state every url handed to `visitPage`, and the
location of every Page on `results`, has the hostname of the domain, and every
Page on `results` is exactly what `visitPage` produced for its location (its
links are not filtered); a held url whose resolved hostname differs is
answered by one `Done()` and nothing else; the loop body of `visitPages`
discards every such url without touching the map, starts a `visitPage` only
for the resolved url and only when the hostnames agree; and two urls whose
resolved hostnames agree (whatever their scheme or port), neither in the map,
get the same decision. -/
theorem scope_filter (s : State U) (h : Reachable lib get domain s) :
    (∀ u ∈ s.fetched, lib.hostname u = lib.hostname domain) ∧
    (∀ p ∈ s.results,
      lib.hostname p.location = lib.hostname domain ∧ visitPage lib get p.location = some p) ∧
    (∀ c, s.disp = .got c → lib.hostname (lib.resolve domain c) ≠ lib.hostname domain →
      step lib get domain .dispatch s =
        some { s with disp := .idle, complete := s.complete - 1, dones := s.dones + 1 }) ∧
    (∀ visited c, lib.hostname (lib.resolve domain c) ≠ lib.hostname domain →
      visitURL lib domain visited c = (visited, .done)) ∧
    (∀ visited c u, (visitURL lib domain visited c).2 = .visit u →
      u = lib.resolve domain c ∧ lib.hostname u = lib.hostname domain) ∧
    (∀ visited c1 c2,
      lib.hostname (lib.resolve domain c1) = lib.hostname (lib.resolve domain c2) →
      lib.str (lib.resolve domain c1) ∉ visited → lib.str (lib.resolve domain c2) ∉ visited →
      ((∃ u, (visitURL lib domain visited c1).2 = .visit u) ↔
        (∃ u, (visitURL lib domain visited c2).2 = .visit u))) := by
  have inv := reachable_invariant lib get domain h
  refine ⟨?_, ?_, ?_, ?_, ?_, ?_⟩
  · intro u hu
    exact crawlable_hostname lib get domain (inv.sound.fetched u hu)
  · intro p hp
    obtain ⟨u, hu, hv⟩ := inv.sound.results p hp
    rw [visitPage_location lib get hv]
    exact ⟨crawlable_hostname lib get domain (inv.sound.fetched u hu), hv⟩
  · intro c hd hne
    have hcnt := inv.accounted.counter
    have hpos : ¬ s.complete ≤ 0 := by
      simp only [State.outstanding, hd, DispPc.units] at hcnt
      omega
    simp only [step, inv.accounted.calm, Bool.false_eq_true, if_false, hd, visitURL_eq, hne,
      false_and, State.done, hpos]
  · intro visited c hne
    simp [visitURL_eq, hne]
  · intro visited c u hv
    rw [visitURL_eq] at hv
    split_ifs at hv with hc
    · simp only [Decision.visit.injEq] at hv
      subst hv
      exact ⟨rfl, hc.1⟩
  · intro visited c1 c2 hh h1 h2
    simp only [visitURL_eq, h1, h2, not_false_eq_true, and_true]
    rw [hh]
    by_cases hs : lib.hostname (lib.resolve domain c2) = lib.hostname domain
    · simp only [hs, if_true]
      exact ⟨fun _ => ⟨_, rfl⟩, fun _ => ⟨_, rfl⟩⟩
    · simp only [hs, if_false]

/-- C9, as amended. For a response whose status is `200 OK`, `visitPage`
attaches no status error: it yields the skip outcome when the content type is
not HTML, and otherwise the Page of `processHTMLContent`, with the extracted
links and no error when the body parsed and with the parse error otherwise.
For every other status, the other 2xx statuses included, it yields a Page
with the status error and no links. -/
theorem visitPage_status_ok (url : U) (resp : Response)
    (hr : get (lib.str url) = .ok resp) :
    (resp.statusCode = StatusOK → isHTMLContent resp = false → visitPage lib get url = none) ∧
    (resp.statusCode = StatusOK → isHTMLContent resp = true →
      visitPage lib get url = some (processHTMLContent lib url resp.body) ∧
      (∀ doc, resp.body = .ok doc →
        processHTMLContent lib url resp.body =
          { location := url, links := specLinks lib doc, err := none }) ∧
      (∀ e, resp.body = .error e →
        processHTMLContent lib url resp.body = { location := url, links := [], err := some e })) ∧
    (resp.statusCode ≠ StatusOK →
      visitPage lib get url =
        some { location := url, links := [], err := some (statusError lib url resp.status) }) := by
  refine ⟨?_, ?_, ?_⟩
  · intro hs hh
    simp [visitPage, hr, hs, hh]
  · intro hs hh
    refine ⟨by simp [visitPage, hr, hs, hh], ?_, ?_⟩
    · intro doc hb
      rw [hb, processHTMLContent_ok]
    · intro e hb
      rw [hb]
      rfl
  · intro hs
    simp [visitPage, hr, hs]

end Crawl

/-! ## Concrete scenarios -/

theorem slash_finite : FiniteSite simpleLib slashSite exampleRoot slashUrls :=
  finiteSite_of_closed simpleLib slashSite exampleRoot slashUrls (by decide) (by decide)

theorem cycle_finite : FiniteSite simpleLib cycleSite exampleRoot cycleUrls :=
  finiteSite_of_closed simpleLib cycleSite exampleRoot cycleUrls (by decide) (by decide)

theorem otherDomain_run :
    run simpleLib otherDomainSite exampleRoot otherDomainSchedule (State.init SimpleURL) =
      some otherDomainFinal := by
  rfl

theorem cycleStart_run :
    run simpleLib cycleSite exampleRoot cycleStart (State.init SimpleURL) = some cycleStarted := by
  rfl

theorem cycle_bound : 5 + (cycleUrls.map (fetchCost simpleLib cycleSite)).sum = 23 := by
  rfl

theorem slash_crawlable : ∀ u ∈ slashUrls, Crawlable simpleLib slashSite exampleRoot u := by
  have hroot : Crawlable simpleLib slashSite exampleRoot exampleRoot :=
    @Crawlable.seed SimpleURL simpleLib slashSite exampleRoot (by decide)
  have h1 : Crawlable simpleLib slashSite exampleRoot (examplePage "/subpage") :=
    Crawlable.link exampleRoot (pathRef "/subpage") hroot (by decide) (by decide)
  have h2 : Crawlable simpleLib slashSite exampleRoot (examplePage "/subpage/") :=
    Crawlable.link exampleRoot (pathRef "/subpage/") hroot (by decide) (by decide)
  intro u hu
  simp only [slashUrls, List.mem_cons, List.mem_singleton, List.not_mem_nil, or_false] at hu
  rcases hu with rfl | rfl | rfl
  · exact hroot
  · exact h1
  · exact h2

theorem slash_yields : ∀ u ∈ slashUrls, visitPage simpleLib slashSite u ≠ none := by
  intro u hu
  have : ∀ v ∈ slashUrls, (visitPage simpleLib slashSite v).isSome = true := by decide
  have h := this u hu
  intro hn
  rw [hn] at h
  cases h

/-- Every complete crawl of `slashSite` sends exactly three Pages: those of
the domain, of `/subpage` and of `/subpage/`. -/
theorem slash_pages (s : State SimpleURL) (hr : Reachable simpleLib slashSite exampleRoot s)
    (hc : s.phase = .closed) :
    (s.results.map (fun p => simpleLib.str p.location)).Perm
      ["http://example.test", "http://example.test/subpage", "http://example.test/subpage/"] := by
  have inv := reachable_invariant simpleLib slashSite exampleRoot hr
  have hperm := closed_perm simpleLib slashSite exampleRoot inv hc
  have hnod := (folded_distinct simpleLib exampleRoot inv.folded).1
  have hall : s.fetched.filter (yieldsPage simpleLib slashSite) = s.fetched := by
    rw [List.filter_eq_self]
    intro u hu
    obtain ⟨v, hv, hstr⟩ := List.mem_map.1 (slash_finite u (inv.sound.fetched u hu))
    rw [yieldsPage_congr simpleLib slashSite hstr]
    have : ∀ w ∈ slashUrls, yieldsPage simpleLib slashSite w = true := by decide
    exact this v hv
  rw [hall] at hperm
  have h1 : (s.results.map (fun p => simpleLib.str p.location)).Perm
      (s.fetched.map simpleLib.str) := by
    have := hperm.map simpleLib.str
    simpa [List.map_map, Function.comp] using this
  refine h1.trans ((List.perm_ext_iff_of_nodup hnod (by decide)).2 ?_)
  intro w
  constructor
  · intro hw
    obtain ⟨u, hu, rfl⟩ := List.mem_map.1 hw
    exact slash_finite u (inv.sound.fetched u hu)
  · intro hw
    have hw' : w ∈ slashUrls.map simpleLib.str := hw
    obtain ⟨u, hu, rfl⟩ := List.mem_map.1 hw'
    obtain ⟨v, hv, hstr⟩ :=
      closed_complete simpleLib slashSite exampleRoot inv hc u (slash_crawlable u hu)
    rw [← hstr]
    exact List.mem_map_of_mem _ hv

/-- The scenario of `/subpage` and `/subpage/` linked from the domain page:
`visitPages` starts a `visitPage` for each, and every complete crawl sends
three Pages. -/
theorem visitPages_distinct_string_witness :
    ((visitPages simpleLib exampleRoot
        ([exampleRoot, pathRef "/subpage"] ++ [pathRef "/subpage/"])).started =
      (visitPages simpleLib exampleRoot [exampleRoot, pathRef "/subpage"]).started ++
        [simpleLib.resolve exampleRoot (pathRef "/subpage/")] ∧
    simpleLib.resolve exampleRoot (pathRef "/subpage/") ∈
      (visitPages simpleLib exampleRoot
        ([exampleRoot, pathRef "/subpage"] ++ pathRef "/subpage/" :: [])).started) ∧
    (visitPages simpleLib exampleRoot
        [exampleRoot, pathRef "/subpage", pathRef "/subpage/"]).started.map simpleLib.str =
      ["http://example.test", "http://example.test/subpage", "http://example.test/subpage/"] ∧
    ∀ s, Reachable simpleLib slashSite exampleRoot s → s.phase = .closed →
      (s.results.map (fun p => simpleLib.str p.location)).Perm
        ["http://example.test", "http://example.test/subpage",
          "http://example.test/subpage/"] :=
  ⟨visitPages_distinct_string simpleLib exampleRoot [exampleRoot, pathRef "/subpage"]
    (pathRef "/subpage/") [] (by decide) (by decide), by decide, slash_pages⟩

/-- Every complete crawl of `slashSite` emits a Page for each of
`http://example.test`, `http://example.test/subpage` and
`http://example.test/subpage/`, and no two Pages for the same string. -/
theorem crawl_pages_witness :
    FiniteSite simpleLib slashSite exampleRoot slashUrls ∧
    (∃ acts s, run simpleLib slashSite exampleRoot acts (State.init SimpleURL) = some s ∧
      s.phase = .closed) ∧
    ∀ s, Reachable simpleLib slashSite exampleRoot s → s.phase = .closed →
      (∀ u ∈ slashUrls, ∃ p ∈ s.results, simpleLib.str p.location = simpleLib.str u) ∧
      (s.results.map (fun p => simpleLib.str p.location)).Nodup :=
  ⟨slash_finite, (crawl_pages simpleLib slashSite exampleRoot slash_finite).1,
    fun s hr hc =>
      ⟨fun u hu =>
        ((crawl_pages simpleLib slashSite exampleRoot slash_finite).2 s hr hc).2.1 u
          (slash_crawlable u hu) (slash_yields u hu),
       ((crawl_pages simpleLib slashSite exampleRoot slash_finite).2 s hr hc).2.2.1⟩⟩

/-- Every schedule of the crawl of `cycleSite` has at most 23 steps, and some
schedule reaches the close. -/
theorem crawl_terminates_witness :
    FiniteSite simpleLib cycleSite exampleRoot cycleUrls ∧
    (∀ acts s, run simpleLib cycleSite exampleRoot acts (State.init SimpleURL) = some s →
      acts.length ≤ 23) ∧
    ∃ acts s, run simpleLib cycleSite exampleRoot acts (State.init SimpleURL) = some s ∧
      s.phase = .closed ∧ s.Quiescent :=
  ⟨cycle_finite,
    fun acts s h =>
      cycle_bound ▸ (crawl_terminates simpleLib cycleSite exampleRoot cycle_finite).1 acts s h,
    (crawl_terminates simpleLib cycleSite exampleRoot cycle_finite).2.2.2⟩

/-- After the first five steps of the crawl of `cycleSite` the counter is 2:
the page of the domain and its queued link. -/
theorem counter_accounts_witness :
    run simpleLib cycleSite exampleRoot cycleStart (State.init SimpleURL) = some cycleStarted ∧
    cycleStarted.adds = 2 ∧ cycleStarted.dones = 0 ∧ cycleStarted.outstanding = 2 ∧
    cycleStarted.complete = (cycleStarted.adds : Int) - (cycleStarted.dones : Int) ∧
    cycleStarted.complete = (cycleStarted.outstanding : Int) ∧
    0 ≤ cycleStarted.complete ∧ cycleStarted.panicked = false :=
  ⟨cycleStart_run, rfl, rfl, rfl,
    (counter_accounts simpleLib cycleSite exampleRoot _ ⟨cycleStart, cycleStart_run⟩).1,
    (counter_accounts simpleLib cycleSite exampleRoot _ ⟨cycleStart, cycleStart_run⟩).2.1,
    (counter_accounts simpleLib cycleSite exampleRoot _ ⟨cycleStart, cycleStart_run⟩).2.2.1,
    (counter_accounts simpleLib cycleSite exampleRoot _ ⟨cycleStart, cycleStart_run⟩).2.2.2.1⟩

/-- The crawl of `otherDomainSite` along `otherDomainSchedule`: it closes once,
at quiescence, with one Page sent. -/
theorem close_once_witness :
    run simpleLib otherDomainSite exampleRoot otherDomainSchedule (State.init SimpleURL) =
      some otherDomainFinal ∧
    otherDomainFinal.phase = .closed ∧ otherDomainFinal.results.length = 1 ∧
    (otherDomainFinal.Quiescent ∧
      ∀ a, step simpleLib otherDomainSite exampleRoot a otherDomainFinal = none) ∧
    otherDomainFinal.panicked = false ∧ otherDomainSchedule.count Action.close ≤ 1 :=
  ⟨otherDomain_run, rfl, rfl,
    (close_once simpleLib otherDomainSite exampleRoot otherDomainSchedule _
      otherDomain_run).2.2.1 rfl,
    (close_once simpleLib otherDomainSite exampleRoot otherDomainSchedule _
      otherDomain_run).2.2.2.1,
    (close_once simpleLib otherDomainSite exampleRoot otherDomainSchedule _
      otherDomain_run).2.2.2.2.2.2.2⟩

/-- The crawl of `otherDomainSite`: only the domain is fetched, and its Page
keeps the link to the other host; and a url of the same host with another
scheme and a port is in scope. -/
theorem scope_filter_witness :
    run simpleLib otherDomainSite exampleRoot otherDomainSchedule (State.init SimpleURL) =
      some otherDomainFinal ∧
    (visitURL simpleLib exampleRoot []
        { scheme := "https", host := "example.test", port := "8443", path := "/x" }).1 =
      ["https://example.test:8443/x"] ∧
    otherDomainFinal.results.map (fun p => (simpleLib.str p.location, p.links.map simpleLib.str)) =
      [("http://example.test", ["https://other.domain"])] ∧
    otherDomainFinal.fetched.map simpleLib.str = ["http://example.test"] ∧
    (∀ u ∈ otherDomainFinal.fetched, simpleLib.hostname u = simpleLib.hostname exampleRoot) ∧
    (∀ p ∈ otherDomainFinal.results,
      simpleLib.hostname p.location = simpleLib.hostname exampleRoot ∧
        visitPage simpleLib otherDomainSite p.location = some p) :=
  ⟨otherDomain_run, rfl, rfl, rfl,
    (scope_filter simpleLib otherDomainSite exampleRoot _
      ⟨otherDomainSchedule, otherDomain_run⟩).1,
    (scope_filter simpleLib otherDomainSite exampleRoot _
      ⟨otherDomainSchedule, otherDomain_run⟩).2.1⟩

/-- The domain page of `cycleSite`, a `200 OK` HTML response. -/
theorem visitPage_status_ok_witness :
    visitPage simpleLib cycleSite exampleRoot =
      some { location := exampleRoot, links := [pathRef "/subpage1"], err := none } := by
  have h := (visitPage_status_ok simpleLib cycleSite exampleRoot
    (htmlResponse [anchor "/subpage1"]) rfl).2.1 rfl rfl
  rw [h.1, h.2.1 _ rfl]
  rfl

end WebCrawler
